import Mathlib

/-!
Verification of the Retrieval–Reasoning Coordinator subsystem of the
deep_search_agent repository.

Strings are modelled as `List Char` (Python `str` is a sequence of code
points).  Python functions from `src/agent/agent_coordinator.py`,
`src/search/tool/reasoning/thinking.py` and
`src/search/tool/global_search_tool.py` are embedded as executable Lean
definitions, and the frozen claims about them are settled as theorems.
-/

namespace DeepSearch

/-! ## Python string primitives -/

/-- Python whitespace class used by `str.strip` and the regex class `\s`
(for the ASCII range): space, tab, newline, carriage return, vertical tab
and form feed. -/
def pyIsSpace (c : Char) : Bool :=
  c = ' ' || c = '\t' || c = '\n' || c = '\r' || c = '\x0b' || c = '\x0c'

/-- Python `str.lstrip()`. -/
def lstripChars (l : List Char) : List Char := l.dropWhile pyIsSpace

/-- Python `str.rstrip()`. -/
def rstripChars (l : List Char) : List Char :=
  (l.reverse.dropWhile pyIsSpace).reverse

/-- Python `str.strip()`. -/
def stripChars (l : List Char) : List Char := rstripChars (lstripChars l)

/-- Python `haystack.find(needle)`: index of the first occurrence, `none`
for Python's `-1`. -/
def findSub : List Char → List Char → Option Nat
  | [], pat => if pat.isEmpty then some 0 else none
  | l@(_ :: t), pat =>
    if pat.isPrefixOf l then some 0 else (findSub t pat).map (· + 1)

/-- Python `needle in haystack`. -/
def containsSub : List Char → List Char → Bool
  | [], pat => pat.isEmpty
  | l@(_ :: t), pat => pat.isPrefixOf l || containsSub t pat

/-! ### Lemmas about the string primitives -/

theorem isPrefixOf_append_self (p t : List Char) :
    p.isPrefixOf (p ++ t) = true := by
  induction p with
  | nil => simp [List.isPrefixOf]
  | cons a as ih => simp [List.isPrefixOf, ih]

theorem isPrefixOf_iff_exists {p l : List Char} :
    p.isPrefixOf l = true ↔ ∃ t, l = p ++ t := by
  constructor
  · intro h
    induction p generalizing l with
    | nil => exact ⟨l, rfl⟩
    | cons a as ih =>
      cases l with
      | nil => simp [List.isPrefixOf] at h
      | cons b bs =>
        simp only [List.isPrefixOf, Bool.and_eq_true, beq_iff_eq] at h
        obtain ⟨t, ht⟩ := ih h.2
        exact ⟨t, by simp [h.1, ht]⟩
  · rintro ⟨t, rfl⟩
    exact isPrefixOf_append_self p t

theorem containsSub_iff_occ {l pat : List Char} :
    containsSub l pat = true ↔ ∃ j, pat.isPrefixOf (l.drop j) = true := by
  induction l with
  | nil =>
    simp only [containsSub, List.drop_nil]
    constructor
    · intro h; exact ⟨0, by cases pat <;> simp_all [List.isPrefixOf, List.isEmpty]⟩
    · rintro ⟨j, hj⟩; cases pat <;> simp_all [List.isPrefixOf, List.isEmpty]
  | cons c t ih =>
    simp only [containsSub, Bool.or_eq_true, ih]
    constructor
    · rintro (h | ⟨j, hj⟩)
      · exact ⟨0, h⟩
      · exact ⟨j + 1, by rw [List.drop_succ_cons]; exact hj⟩
    · rintro ⟨j, hj⟩
      cases j with
      | zero => exact Or.inl (by rw [List.drop_zero] at hj; exact hj)
      | succ j => exact Or.inr ⟨j, by rw [List.drop_succ_cons] at hj; exact hj⟩

theorem containsSub_decomp (A x B : List Char) :
    containsSub (A ++ (x ++ B)) x = true := by
  rw [containsSub_iff_occ]
  exact ⟨A.length, by
    rw [show A.length = A.length + 0 by omega, List.drop_append, List.drop_zero]
    exact isPrefixOf_append_self x B⟩

theorem findSub_some_occ {l pat : List Char} {i : Nat}
    (h : findSub l pat = some i) : pat.isPrefixOf (l.drop i) = true := by
  induction l generalizing i with
  | nil =>
    simp only [findSub] at h
    split at h
    · cases h
      cases pat <;> simp_all [List.isPrefixOf, List.isEmpty]
    · cases h
  | cons c t ih =>
    simp only [findSub] at h
    split at h
    next hpre => cases h; exact hpre
    next =>
      cases hft : findSub t pat with
      | none => rw [hft] at h; cases h
      | some j =>
        rw [hft] at h
        simp only [Option.map_some'] at h
        cases h
        simpa using ih hft

theorem findSub_some_min {l pat : List Char} {i : Nat}
    (h : findSub l pat = some i) :
    ∀ j, j < i → pat.isPrefixOf (l.drop j) = false := by
  induction l generalizing i with
  | nil =>
    simp only [findSub] at h
    split at h
    · cases h; intro j hj; omega
    · cases h
  | cons c t ih =>
    simp only [findSub] at h
    split at h
    · cases h; intro j hj; omega
    next hnp =>
      cases hft : findSub t pat with
      | none => rw [hft] at h; cases h
      | some k =>
        rw [hft] at h
        simp only [Option.map_some'] at h
        cases h
        intro j hj
        cases j with
        | zero =>
          simp only [List.drop_zero]
          cases hb : pat.isPrefixOf (c :: t)
          · rfl
          · exact absurd hb hnp
        | succ j => simpa using ih hft j (by omega)

/-- An occurrence inside a `take` lifts to an occurrence of the whole list,
at the same (smaller) index. -/
theorem occ_of_occ_take {l pat : List Char} {i j : Nat}
    (hp : pat ≠ []) (h : pat.isPrefixOf ((l.take i).drop j) = true) :
    j < i ∧ pat.isPrefixOf (l.drop j) = true := by
  obtain ⟨t, ht⟩ := isPrefixOf_iff_exists.mp h
  rw [List.drop_take] at ht
  have hji : j < i := by
    by_contra hji
    have : i - j = 0 := by omega
    rw [this] at ht
    simp at ht
    exact hp ht.1
  refine ⟨hji, ?_⟩
  have hfull : l.drop j = pat ++ (t ++ (l.drop j).drop (i - j)) := by
    rw [← List.append_assoc, ← ht, List.take_append_drop]
  exact isPrefixOf_iff_exists.mpr ⟨_, hfull⟩

theorem dropWhile_append_all {p : Char → Bool} {X : List Char}
    (h : ∀ c ∈ X, p c = true) (Y : List Char) :
    (X ++ Y).dropWhile p = Y.dropWhile p := by
  induction X with
  | nil => simp
  | cons a t ih =>
    simp only [List.cons_append, List.dropWhile_cons]
    rw [h a (by simp), if_pos rfl]
    exact ih (fun c hc => h c (by simp [hc]))

theorem dropWhile_append_ne {p : Char → Bool} {X : List Char}
    (h : X.dropWhile p ≠ []) (Y : List Char) :
    (X ++ Y).dropWhile p = X.dropWhile p ++ Y := by
  induction X with
  | nil => simp at h
  | cons a t ih =>
    by_cases hpa : p a = true
    · rw [List.dropWhile_cons, if_pos hpa] at h
      simp only [List.cons_append, List.dropWhile_cons, if_pos hpa]
      exact ih h
    · simp only [List.cons_append, List.dropWhile_cons, if_neg hpa]

theorem rstrip_append_all {A B : List Char} (h : ∀ c ∈ B, pyIsSpace c = true) :
    rstripChars (A ++ B) = rstripChars A := by
  unfold rstripChars
  rw [List.reverse_append, dropWhile_append_all (fun c hc => h c (by simpa using hc))]

theorem rstrip_append_ne {A B : List Char} (h : rstripChars B ≠ []) :
    rstripChars (A ++ B) = A ++ rstripChars B := by
  unfold rstripChars at *
  have hne : B.reverse.dropWhile pyIsSpace ≠ [] := by
    intro hnil; exact h (by rw [hnil]; rfl)
  rw [List.reverse_append, dropWhile_append_ne hne, List.reverse_append,
    List.reverse_reverse]

/-- String decomposition produced by `rstrip`: the tail removed is all
whitespace. -/
theorem rstrip_decomp (s : List Char) :
    ∃ w, s = rstripChars s ++ w ∧ ∀ c ∈ w, pyIsSpace c = true := by
  refine ⟨(s.reverse.takeWhile pyIsSpace).reverse, ?_, ?_⟩
  · unfold rstripChars
    rw [← List.reverse_append, List.takeWhile_append_dropWhile, List.reverse_reverse]
  · intro c hc
    exact List.mem_takeWhile_imp (by simpa using hc)

theorem lstrip_decomp (s : List Char) :
    ∃ u, s = u ++ lstripChars s ∧ ∀ c ∈ u, pyIsSpace c = true := by
  refine ⟨s.takeWhile pyIsSpace, ?_, ?_⟩
  · rw [lstripChars, List.takeWhile_append_dropWhile]
  · intro c hc
    exact List.mem_takeWhile_imp hc

theorem lstrip_cons_not_space {c : Char} {t : List Char}
    (h : pyIsSpace c = false) : lstripChars (c :: t) = c :: t := by
  simp [lstripChars, List.dropWhile_cons, h]

/-- Occurrence monotonicity: a pattern occurring in `X` occurs in
`u ++ X ++ w`. -/
theorem containsSub_embed {X pat : List Char} (u w : List Char)
    (h : containsSub X pat = true) :
    containsSub (u ++ X ++ w) pat = true := by
  rw [containsSub_iff_occ] at h ⊢
  obtain ⟨j, hj⟩ := h
  obtain ⟨t, ht⟩ := isPrefixOf_iff_exists.mp hj
  refine ⟨u.length + j, ?_⟩
  rw [List.append_assoc, List.drop_append, isPrefixOf_iff_exists]
  exact ⟨t ++ w.drop (j - X.length), by
    rw [List.drop_append_eq_append_drop, ht, List.append_assoc]⟩

/-- A pattern occurring in `stripChars t` occurs in `t`. -/
theorem containsSub_of_strip {t pat : List Char}
    (h : containsSub (stripChars t) pat = true) : containsSub t pat = true := by
  obtain ⟨u, hu, _⟩ := lstrip_decomp t
  obtain ⟨w, hw, _⟩ := rstrip_decomp (lstripChars t)
  have hw' : lstripChars t = stripChars t ++ w := by unfold stripChars; exact hw
  have hdecomp : t = u ++ (stripChars t ++ w) := by rw [← hw']; exact hu
  rw [hdecomp, ← List.append_assoc]
  exact containsSub_embed u w h

/-! ## C2: final-answer cleanup in `process_query_stream`
(`agent_coordinator.py`, lines 602–606) -/

/-- The trailing-section marker removed by the stream cleanup
(`"#### 引用数据"`). -/
def refMarker : List Char := "#### 引用数据".data

/-- Embedding of the answer cleanup in `process_query_stream`:
```
clean_answer = final_answer
ref_index = final_answer.find("#### 引用数据")
if ref_index > 0:
    clean_answer = final_answer[:ref_index].strip()
```
`process_query` performs no cleanup at all on the synthesized answer. -/
def cleanAnswer (ans : List Char) : List Char :=
  match findSub ans refMarker with
  | some i => if 0 < i then stripChars (ans.take i) else ans
  | none => ans

/-- C2 counterexample: the final answer is NOT sanitized of `<think>`
markers.  A synthesized answer containing a `<think>…</think>` block
passes through the stream cleanup unchanged (and `process_query` applies
no cleanup at all), so the returned answer still contains `<think>`,
contradicting the claim that the final answer never contains such
markers. -/
theorem c2_think_marker_survives :
    containsSub (cleanAnswer "<think>draft</think>final".data) "<think>".data = true := by
  decide

/-- C2 (amended): the coordinator's only final-answer cleanup is in
`process_query_stream` and only removes a trailing `#### 引用数据`
section: when the marker's first occurrence is at a positive index the
answer is truncated before it and stripped (after which the marker no
longer occurs); when the marker is absent or at index 0 the answer is
returned unchanged; `<think>` blocks are never stripped and
`process_query` performs no cleanup. -/
theorem cleanAnswer_spec (ans : List Char) :
    (∀ i, findSub ans refMarker = some i → 0 < i →
      cleanAnswer ans = stripChars (ans.take i) ∧
      containsSub (cleanAnswer ans) refMarker = false) ∧
    (findSub ans refMarker = none → cleanAnswer ans = ans) ∧
    (findSub ans refMarker = some 0 → cleanAnswer ans = ans) := by
  refine ⟨?_, ?_, ?_⟩
  · intro i h hi
    have hval : cleanAnswer ans = stripChars (ans.take i) := by
      unfold cleanAnswer
      rw [h]
      exact if_pos hi
    refine ⟨hval, ?_⟩
    rw [hval]
    cases hc : containsSub (stripChars (ans.take i)) refMarker
    · rfl
    · exfalso
      have h1 : containsSub (ans.take i) refMarker = true := containsSub_of_strip hc
      obtain ⟨j, hj⟩ := containsSub_iff_occ.mp h1
      obtain ⟨hji, hocc⟩ := occ_of_occ_take (by decide) hj
      have := findSub_some_min h j hji
      rw [hocc] at this
      cases this
  · intro h
    unfold cleanAnswer
    rw [h]
  · intro h
    unfold cleanAnswer
    rw [h]
    rfl

/-- Witness for the C2 amended theorem at a concrete answer whose
`#### 引用数据` section starts at index 8. -/
theorem cleanAnswer_spec_witness :
    cleanAnswer "Answer.\n#### 引用数据\n[1] src".data
        = stripChars ("Answer.\n#### 引用数据\n[1] src".data.take 8) ∧
      containsSub (cleanAnswer "Answer.\n#### 引用数据\n[1] src".data) refMarker = false :=
  (cleanAnswer_spec "Answer.\n#### 引用数据\n[1] src".data).1 8 (by decide) (by decide)

/-! ## C1: task ordering in `process_query` and `process_query_stream`
(`agent_coordinator.py`, lines 271–274 and 494–497) -/

/-- A retrieval task of a plan (`Task` in the data model): JSON object
with optional fields, read with `task.get(...)` defaults. -/
structure Task where
  ty : List Char
  query : Option (List Char)
  priority : Option Int
  entities : List (List Char)
deriving DecidableEq

/-- Python `task.get("priority", 3)`. -/
def getPriority (t : Task) : Int := t.priority.getD 3

/-- Embedding of
`sorted(retrieval_plan.get("tasks", []), key=lambda x: x.get("priority", 3), reverse=True)`,
used identically in `process_query` (line 272) and
`process_query_stream` (line 495).  Python's `sorted` is stable, and with
`reverse=True` elements with equal keys still keep their original
relative order, which is exactly a stable insertion sort with the
comparison "earlier element goes first iff its key is ≥". -/
def sortedTasksDesc (tasks : List Task) : List Task :=
  List.insertionSort (fun a b => getPriority b ≤ getPriority a) tasks

/-- Tasks of a plan paired with their original plan index. -/
def enumTasks : Nat → List Task → List (Nat × Task)
  | _, [] => []
  | k, t :: ts => (k, t) :: enumTasks (k + 1) ts

/-- The spec's total order on indexed tasks: by `(−priority, original_index)`. -/
def lexBefore (p q : Nat × Task) : Prop :=
  getPriority q.2 < getPriority p.2 ∨
    (getPriority p.2 = getPriority q.2 ∧ p.1 < q.1)

instance : DecidableRel lexBefore := fun p q => by
  unfold lexBefore; exact inferInstance

/-- The spec-side ordering: `plan.tasks` sorted by `(−priority, original_index)`. -/
def specTaskOrder (tasks : List Task) : List Task :=
  (List.insertionSort lexBefore (enumTasks 0 tasks)).map Prod.snd

/-- Priority-only comparison lifted to indexed tasks. -/
def descBefore (p q : Nat × Task) : Prop := getPriority q.2 ≤ getPriority p.2

instance : DecidableRel descBefore := fun p q => by
  unfold descBefore; exact inferInstance

theorem map_snd_orderedInsert (p : Nat × Task) (l : List (Nat × Task)) :
    (List.orderedInsert descBefore p l).map Prod.snd
      = List.orderedInsert (fun a b => getPriority b ≤ getPriority a) p.2
          (l.map Prod.snd) := by
  induction l with
  | nil => rfl
  | cons b t ih =>
    simp only [List.orderedInsert, List.map_cons]
    by_cases h : descBefore p b
    · rw [if_pos h, if_pos (by exact h)]
      simp
    · rw [if_neg h, if_neg (by exact h)]
      simp only [List.map_cons, ih]

theorem map_snd_insertionSort (l : List (Nat × Task)) :
    (List.insertionSort descBefore l).map Prod.snd
      = List.insertionSort (fun a b => getPriority b ≤ getPriority a)
          (l.map Prod.snd) := by
  induction l with
  | nil => rfl
  | cons p t ih =>
    simp only [List.insertionSort, List.map_cons]
    rw [map_snd_orderedInsert, ih]

theorem orderedInsert_desc_eq_lex (p : Nat × Task) (l : List (Nat × Task))
    (h : ∀ q ∈ l, p.1 < q.1) :
    List.orderedInsert descBefore p l = List.orderedInsert lexBefore p l := by
  induction l with
  | nil => rfl
  | cons b t ih =>
    have hpb : p.1 < b.1 := h b (by simp)
    simp only [List.orderedInsert]
    by_cases hd : descBefore p b
    · rw [if_pos hd, if_pos (show lexBefore p b by
        unfold descBefore at hd; unfold lexBefore; omega)]
    · rw [if_neg hd, if_neg (show ¬ lexBefore p b by
        unfold descBefore at hd; unfold lexBefore; omega)]
      rw [ih (fun q hq => h q (by simp [hq]))]

theorem insertionSort_desc_eq_lex (l : List (Nat × Task))
    (h : List.Pairwise (fun a b => a.1 < b.1) l) :
    List.insertionSort descBefore l = List.insertionSort lexBefore l := by
  induction l with
  | nil => rfl
  | cons p t ih =>
    rw [List.pairwise_cons] at h
    simp only [List.insertionSort]
    rw [ih h.2, orderedInsert_desc_eq_lex]
    intro q hq
    exact h.1 q ((List.perm_insertionSort lexBefore t).subset hq)

theorem enumTasks_map_snd (k : Nat) (ts : List Task) :
    (enumTasks k ts).map Prod.snd = ts := by
  induction ts generalizing k with
  | nil => rfl
  | cons t ts ih => simp [enumTasks, ih]

theorem enumTasks_idx_ge (k : Nat) (ts : List Task) :
    ∀ q ∈ enumTasks k ts, k ≤ q.1 := by
  induction ts generalizing k with
  | nil => intro q hq; cases hq
  | cons t ts ih =>
    intro q hq
    cases hq with
    | head => exact Nat.le_refl k
    | tail _ hq => exact Nat.le_of_succ_le (ih (k + 1) q hq)

theorem enumTasks_pairwise (k : Nat) (ts : List Task) :
    List.Pairwise (fun a b => a.1 < b.1) (enumTasks k ts) := by
  induction ts generalizing k with
  | nil => exact List.Pairwise.nil
  | cons t ts ih =>
    refine List.pairwise_cons.mpr ⟨?_, ih (k + 1)⟩
    intro q hq
    exact Nat.lt_of_lt_of_le (Nat.lt_succ_self k) (enumTasks_idx_ge (k + 1) ts q hq)

/-- C1: for every plan whose tasks all carry integer priorities, the task
sequence executed by the coordinator (the same `sorted(...)` expression
in `process_query` and `process_query_stream`) is exactly `plan.tasks`
sorted by `(−priority, original_index)`: priority descending with a
stable tie-break on the original plan index. -/
theorem coordinator_plan_ordering (tasks : List Task)
    (_h : ∀ t ∈ tasks, (t.priority).isSome) :
    sortedTasksDesc tasks = specTaskOrder tasks := by
  unfold specTaskOrder
  rw [← insertionSort_desc_eq_lex _ (enumTasks_pairwise 0 tasks),
    map_snd_insertionSort, enumTasks_map_snd]
  rfl

/-- Witness for C1 at a concrete plan with a priority tie: tasks with
priorities `[3, 5, 3]` execute as `[5, 3, 3]`, the tied tasks keeping
their original order. -/
theorem coordinator_plan_ordering_witness :
    sortedTasksDesc
        [⟨"a".data, none, some 3, []⟩, ⟨"b".data, none, some 5, []⟩,
          ⟨"c".data, none, some 3, []⟩]
      = specTaskOrder
        [⟨"a".data, none, some 3, []⟩, ⟨"b".data, none, some 5, []⟩,
          ⟨"c".data, none, some 3, []⟩] :=
  coordinator_plan_ordering _ (by decide)

/-! ## Thinking Engine state (`src/search/tool/reasoning/thinking.py`) -/

/-- A step of the reasoning tree: `{"content": ..., "timestamp": time.time()}`.
Timestamps are abstracted as naturals supplied by the caller. -/
structure RStep where
  content : List Char
  timestamp : Nat
deriving DecidableEq

/-- The reasoning tree: a Python dict from branch name to step list,
modelled as an insertion-ordered association list. -/
abbrev RTree := List (String × List RStep)

/-- Python dict lookup `tree.get(k)` / `k in tree`. -/
def treeFind : RTree → String → Option (List RStep)
  | [], _ => none
  | (k', v) :: r, k => if k' = k then some v else treeFind r k

/-- Python dict assignment `tree[k] = v`. -/
def treeSet : RTree → String → List RStep → RTree
  | [], k, v => [(k, v)]
  | (k', v') :: r, k, v =>
    if k' = k then (k, v) :: r else (k', v') :: treeSet r k v

theorem treeFind_treeSet (t : RTree) (k : String) (v : List RStep) (k' : String) :
    treeFind (treeSet t k v) k' = if k' = k then some v else treeFind t k' := by
  induction t with
  | nil =>
    simp only [treeSet, treeFind]
    by_cases h1 : k = k'
    · rw [if_pos h1, if_pos h1.symm]
    · rw [if_neg h1, if_neg (fun hh => h1 hh.symm)]
  | cons p r ih =>
    obtain ⟨k₀, v₀⟩ := p
    simp only [treeSet]
    by_cases h0 : k₀ = k
    · subst h0
      simp only [if_pos rfl, treeFind]
      by_cases h1 : k₀ = k'
      · rw [if_pos h1, if_pos h1.symm]
      · rw [if_neg h1, if_neg (fun hh => h1 hh.symm), if_neg h1]
    · rw [if_neg h0]
      simp only [treeFind, ih]
      by_cases h1 : k₀ = k'
      · subst h1
        rw [if_pos rfl, if_neg h0, if_pos rfl]
      · rw [if_neg h1]
        by_cases h2 : k' = k
        · rw [if_pos h2, if_pos h2]
        · rw [if_neg h2, if_neg h2, if_neg h1]

/-- The Thinking Engine state (`ThinkingEngine.__init__`): reasoning
steps, message history, executed queries, the branch tree and the current
branch.  The LLM handle is external and not part of the state. -/
structure ThinkingEngine where
  all_reasoning_steps : List (List Char)
  msg_history : List (List Char)
  executed_search_queries : List (List Char)
  reasoning_tree : RTree
  current_branch : String
deriving DecidableEq

/-- Freshly constructed engine (`__init__`): all collections empty, the
reasoning tree is the EMPTY dict, and `current_branch = "main"`. -/
def mkThinkingEngine : ThinkingEngine :=
  { all_reasoning_steps := []
    msg_history := []
    executed_search_queries := []
    reasoning_tree := []
    current_branch := "main" }

/-- `initialize_with_query(query)`: resets the trace and creates the
`main` branch, seeding the history with the user question. -/
def initWithQuery (e : ThinkingEngine) (query : List Char) : ThinkingEngine :=
  { e with
    all_reasoning_steps := []
    msg_history := ["问题:\"".data ++ query ++ "\"\n".data]
    executed_search_queries := []
    reasoning_tree := [("main", [])]
    current_branch := "main" }

/-- `add_reasoning_step(content)`: appends to `all_reasoning_steps`,
creates the current branch in the tree if missing, and appends a step
with the current time. -/
def addReasoningStep (e : ThinkingEngine) (content : List Char) (now : Nat) :
    ThinkingEngine :=
  let tree0 :=
    if (treeFind e.reasoning_tree e.current_branch).isSome then e.reasoning_tree
    else treeSet e.reasoning_tree e.current_branch []
  { e with
    all_reasoning_steps := e.all_reasoning_steps ++ [content]
    reasoning_tree :=
      treeSet tree0 e.current_branch
        ((treeFind tree0 e.current_branch).getD [] ++ [⟨content, now⟩]) }

/-- `branch_reasoning(branch_name, base_branch)`: falls back to `"main"`
when the base is missing, creates the new branch, copies the base steps,
switches to the new branch and records a creation step.  Returns `none`
for the Python `KeyError` raised when even `"main"` is absent. -/
def branchReasoning (e : ThinkingEngine) (branch_name base_branch : String)
    (now : Nat) : Option ThinkingEngine :=
  let base :=
    if (treeFind e.reasoning_tree base_branch).isSome then base_branch else "main"
  let tree1 := treeSet e.reasoning_tree branch_name []
  match treeFind tree1 base with
  | none => none
  | some baseSteps =>
    let e1 := { e with
      reasoning_tree := treeSet tree1 branch_name baseSteps
      current_branch := branch_name }
    some (addReasoningStep e1
      (("创建推理分支: " ++ branch_name ++ "，基于: " ++ base).data) now)

/-- `switch_branch(branch_name)`: switches only when the branch exists,
returning whether it did. -/
def switch_branch (e : ThinkingEngine) (branch_name : String) :
    Bool × ThinkingEngine :=
  if (treeFind e.reasoning_tree branch_name).isSome then
    (true, { e with current_branch := branch_name })
  else (false, e)

/-- The synthetic record step appended by `merge_branches`. -/
def mergedMarker (source_branch target_branch : String) (now : Nat) : RStep :=
  ⟨("合并分支: " ++ source_branch ++ " → " ++ target_branch).data, now⟩

/-- `merge_branches(source_branch, target_branch)`: when both branches
exist, appends to the target the source steps whose content is not
already present in the target, then unconditionally appends a synthetic
"merged" record step, and switches to the target. -/
def merge_branches (e : ThinkingEngine) (source_branch target_branch : String)
    (now : Nat) : Bool × ThinkingEngine :=
  match treeFind e.reasoning_tree source_branch,
        treeFind e.reasoning_tree target_branch with
  | some source_steps, some target_steps =>
    let target_contents := target_steps.map RStep.content
    let source_unique :=
      source_steps.filter (fun s => decide (s.content ∉ target_contents))
    (true, { e with
      reasoning_tree :=
        treeSet e.reasoning_tree target_branch
          (target_steps ++ source_unique ++ [mergedMarker source_branch target_branch now])
      current_branch := target_branch })
  | _, _ => (false, e)

/-! ### C4: branch-merge idempotence -/

/-- A concrete engine state with branches `A` (empty) and `B` (one step). -/
def c4Engine : ThinkingEngine :=
  { all_reasoning_steps := []
    msg_history := []
    executed_search_queries := []
    reasoning_tree := [("main", []), ("A", []), ("B", [⟨"s".data, 0⟩])]
    current_branch := "main" }

/-- C4 counterexample: merging `B` into `A` twice does NOT leave `A`
with the same step list as a single merge — the synthetic "merged"
record step is appended unconditionally on every merge, so the second
merge adds one more step (only the source steps are deduplicated). -/
theorem c4_merge_twice_differs :
    treeFind (merge_branches (merge_branches c4Engine "B" "A" 1).2 "B" "A" 2).2.reasoning_tree "A"
      ≠ treeFind (merge_branches c4Engine "B" "A" 1).2.reasoning_tree "A" := by
  decide

/-- Evaluation of `merge_branches` when both branches exist. -/
theorem merge_branches_eq {e : ThinkingEngine} {src dst : String}
    {ss ds : List RStep}
    (hss : treeFind e.reasoning_tree src = some ss)
    (hds : treeFind e.reasoning_tree dst = some ds) (now : Nat) :
    merge_branches e src dst now =
      (true, { e with
        reasoning_tree := treeSet e.reasoning_tree dst
          (ds ++ ss.filter (fun s => decide (s.content ∉ ds.map RStep.content))
              ++ [mergedMarker src dst now])
        current_branch := dst }) := by
  simp only [merge_branches, hss, hds]

/-- C4 (amended): `merge_branches(B, A)` twice leaves `A` with exactly
the steps of a single `merge_branches(B, A)` plus one extra synthetic
"merged" record step — the source steps themselves are deduplicated by
content equality, so no source step is appended twice. -/
theorem merge_branches_second_merge (e : ThinkingEngine)
    (src dst : String) (t1 t2 : Nat)
    (hs : treeFind e.reasoning_tree src ≠ none)
    (hd : treeFind e.reasoning_tree dst ≠ none) :
    treeFind (merge_branches (merge_branches e src dst t1).2 src dst t2).2.reasoning_tree dst
      = (treeFind (merge_branches e src dst t1).2.reasoning_tree dst).map
          (· ++ [mergedMarker src dst t2]) := by
  have self_mem : ∀ (l : List RStep), ∀ s ∈ l, s.content ∈ l.map RStep.content :=
    fun l s hsl => List.mem_map.mpr ⟨s, hsl, rfl⟩
  cases hss : treeFind e.reasoning_tree src with
  | none => exact absurd hss hs
  | some ss =>
  cases hds : treeFind e.reasoning_tree dst with
  | none => exact absurd hds hd
  | some ds =>
  rw [merge_branches_eq hss hds t1]
  dsimp only
  by_cases hsd : src = dst
  · subst hsd
    have heq : ss = ds := by rw [hss] at hds; exact Option.some_inj.mp hds
    subst heq
    have huniq : ss.filter (fun s => decide (s.content ∉ ss.map RStep.content)) = [] := by
      rw [List.filter_eq_nil_iff]
      intro s hsl
      simp only [decide_eq_true_eq, Decidable.not_not]
      exact self_mem ss s hsl
    rw [huniq]
    set nds := ss ++ [] ++ [mergedMarker src src t1] with hnds_def
    have hfd : treeFind
        ({ e with
            reasoning_tree := treeSet e.reasoning_tree src nds
            current_branch := src } : ThinkingEngine).reasoning_tree src = some nds := by
      show treeFind (treeSet e.reasoning_tree src nds) src = some nds
      rw [treeFind_treeSet, if_pos rfl]
    rw [merge_branches_eq hfd hfd t2]
    dsimp only
    have huniq2 : nds.filter (fun s => decide (s.content ∉ nds.map RStep.content)) = [] := by
      rw [List.filter_eq_nil_iff]
      intro s hsl
      simp only [decide_eq_true_eq, Decidable.not_not]
      exact self_mem nds s hsl
    rw [huniq2]
    simp [treeFind_treeSet]
  · set uniq := ss.filter (fun s => decide (s.content ∉ ds.map RStep.content)) with huniq_def
    set nds := ds ++ uniq ++ [mergedMarker src dst t1] with hnds_def
    have hfs : treeFind
        ({ e with
            reasoning_tree := treeSet e.reasoning_tree dst nds
            current_branch := dst } : ThinkingEngine).reasoning_tree src = some ss := by
      show treeFind (treeSet e.reasoning_tree dst nds) src = some ss
      rw [treeFind_treeSet, if_neg hsd, hss]
    have hfd : treeFind
        ({ e with
            reasoning_tree := treeSet e.reasoning_tree dst nds
            current_branch := dst } : ThinkingEngine).reasoning_tree dst = some nds := by
      show treeFind (treeSet e.reasoning_tree dst nds) dst = some nds
      rw [treeFind_treeSet, if_pos rfl]
    rw [merge_branches_eq hfs hfd t2]
    dsimp only
    have huniq2 : ss.filter (fun s => decide (s.content ∉ nds.map RStep.content)) = [] := by
      rw [List.filter_eq_nil_iff]
      intro s hsl
      simp only [decide_eq_true_eq, Decidable.not_not, hnds_def, List.map_append,
        List.mem_append]
      by_cases hmem : s.content ∈ ds.map RStep.content
      · exact Or.inl (Or.inl hmem)
      · refine Or.inl (Or.inr ?_)
        refine self_mem uniq s ?_
        rw [huniq_def, List.mem_filter]
        exact ⟨hsl, by simpa using hmem⟩
    rw [huniq2]
    simp [treeFind_treeSet]

/-- Witness for the C4 amended theorem on the concrete engine. -/
theorem merge_branches_second_merge_witness :
    treeFind (merge_branches (merge_branches c4Engine "B" "A" 1).2 "B" "A" 2).2.reasoning_tree "A"
      = (treeFind (merge_branches c4Engine "B" "A" 1).2.reasoning_tree "A").map
          (· ++ [mergedMarker "B" "A" 2]) :=
  merge_branches_second_merge c4Engine "B" "A" 1 2 (by decide) (by decide)

/-! ### C9: the `main` branch -/

/-- C9 counterexample: for a freshly constructed `ThinkingEngine`,
`"main"` is NOT a key of the reasoning tree — `__init__` sets
`reasoning_tree = {}` and only `initialize_with_query` creates the
`main` branch. -/
theorem c9_fresh_engine_lacks_main :
    treeFind mkThinkingEngine.reasoning_tree "main" = none := rfl

theorem addStep_preserves_main (e : ThinkingEngine) (c : List Char) (now : Nat)
    (h : treeFind e.reasoning_tree "main" ≠ none) :
    treeFind (addReasoningStep e c now).reasoning_tree "main" ≠ none := by
  dsimp only [addReasoningStep]
  rw [treeFind_treeSet]
  by_cases hc : "main" = e.current_branch
  · rw [if_pos hc]; simp
  · rw [if_neg hc]
    by_cases hcb : (treeFind e.reasoning_tree e.current_branch).isSome = true
    · rw [if_pos hcb]; exact h
    · rw [if_neg hcb, treeFind_treeSet, if_neg hc]; exact h

/-- C9 (amended): `current_branch` defaults to `"main"`, but at
construction the reasoning tree is empty; `"main"` becomes a key on
`initialize_with_query` and every subsequent engine operation preserves
its presence. -/
theorem thinking_main_branch_invariant :
    mkThinkingEngine.current_branch = "main" ∧
    mkThinkingEngine.reasoning_tree = [] ∧
    (∀ e q, treeFind (initWithQuery e q).reasoning_tree "main" = some []) ∧
    (∀ e c now, treeFind e.reasoning_tree "main" ≠ none →
      treeFind (addReasoningStep e c now).reasoning_tree "main" ≠ none) ∧
    (∀ e nm bs now, treeFind e.reasoning_tree "main" ≠ none →
      ∃ e', branchReasoning e nm bs now = some e' ∧
        treeFind e'.reasoning_tree "main" ≠ none) ∧
    (∀ e nm, treeFind e.reasoning_tree "main" ≠ none →
      treeFind (switch_branch e nm).2.reasoning_tree "main" ≠ none) ∧
    (∀ e sb tb now, treeFind e.reasoning_tree "main" ≠ none →
      treeFind (merge_branches e sb tb now).2.reasoning_tree "main" ≠ none) := by
  refine ⟨rfl, rfl, fun e q => rfl, addStep_preserves_main, ?_, ?_, ?_⟩
  · intro e nm bs now h
    have hmainSome : (treeFind e.reasoning_tree "main").isSome :=
      Option.isSome_iff_ne_none.mpr h
    dsimp only [branchReasoning]
    set base := (if (treeFind e.reasoning_tree bs).isSome = true then bs else "main")
      with hbasedef
    have hbsome : (treeFind e.reasoning_tree base).isSome := by
      rw [hbasedef]
      by_cases hbs : (treeFind e.reasoning_tree bs).isSome = true
      · rw [if_pos hbs]; exact hbs
      · rw [if_neg hbs]; exact hmainSome
    have h2 : (treeFind (treeSet e.reasoning_tree nm []) base).isSome = true := by
      rw [treeFind_treeSet]
      by_cases hbn : base = nm
      · rw [if_pos hbn]; rfl
      · rw [if_neg hbn]; exact hbsome
    cases hfind : treeFind (treeSet e.reasoning_tree nm []) base with
    | none => rw [hfind] at h2; simp at h2
    | some baseSteps =>
      refine ⟨_, rfl, ?_⟩
      apply addStep_preserves_main
      show treeFind (treeSet (treeSet e.reasoning_tree nm []) nm baseSteps) "main" ≠ none
      rw [treeFind_treeSet]
      by_cases hmn : "main" = nm
      · rw [if_pos hmn]; simp
      · rw [if_neg hmn, treeFind_treeSet, if_neg hmn]; exact h
  · intro e nm h
    dsimp only [switch_branch]
    by_cases hnm : (treeFind e.reasoning_tree nm).isSome = true
    · rw [if_pos hnm]; exact h
    · rw [if_neg hnm]; exact h
  · intro e sb tb now h
    cases hsb : treeFind e.reasoning_tree sb with
    | none =>
      dsimp only [merge_branches]
      rw [hsb]
      exact h
    | some ss =>
      cases htb : treeFind e.reasoning_tree tb with
      | none =>
        dsimp only [merge_branches]
        rw [hsb, htb]
        exact h
      | some ts =>
        rw [merge_branches_eq hsb htb now]
        dsimp only
        rw [treeFind_treeSet]
        by_cases hm : "main" = tb
        · rw [if_pos hm]; simp
        · rw [if_neg hm]; exact h

/-- Witness for the C9 amended theorem: instantiates the preservation
clauses on a concrete initialized engine. -/
theorem thinking_main_branch_invariant_witness :
    treeFind (addReasoningStep (initWithQuery mkThinkingEngine "q".data) "step".data 7).reasoning_tree "main"
      ≠ none :=
  thinking_main_branch_invariant.2.2.2.1 (initWithQuery mkThinkingEngine "q".data)
    "step".data 7 (by decide)

/-! ## C5: `prepare_truncated_reasoning`
(`thinking.py`, lines 723–773; markers from `config/reasoning_prompts.py`) -/

/-- `BEGIN_SEARCH_QUERY` from `config/reasoning_prompts.py`. -/
def BEGIN_SEARCH_QUERY : List Char := "<|begin_search_query|>".data

/-- `BEGIN_SEARCH_RESULT` from `config/reasoning_prompts.py`. -/
def BEGIN_SEARCH_RESULT : List Char := "<|begin_search_result|>".data

/-- Whether a step contains a search-query or search-result begin marker
(`BEGIN_SEARCH_QUERY in step or BEGIN_SEARCH_RESULT in step`). -/
def stepHasMarker (s : List Char) : Bool :=
  containsSub s BEGIN_SEARCH_QUERY || containsSub s BEGIN_SEARCH_RESULT

/-- The text rendered for step `i` (0-based): `f"Step {i + 1}: {step}\n\n"`. -/
def stepEntry (steps : List (List Char)) (i : Nat) : List Char :=
  ("Step " ++ toString (i + 1) ++ ": ").data ++ steps.getD i [] ++ "\n\n".data

/-- The rendering loop of the truncating branch: `"...\n\n"` is inserted
whenever the next kept index is not adjacent to the previously rendered
one (`if idx > prev_idx + 1`, `prev_idx` starting at `-1`). -/
def renderKept (steps : List (List Char)) : Int → List Nat → List Char
  | _, [] => []
  | prev, i :: rest =>
    (if prev + 1 < (i : Int) then "...\n\n".data else []) ++
      stepEntry steps i ++ renderKept steps i rest

/-- The kept indices of the truncating branch, as the source builds them:
step index 0, then `range(max(1, n - 4), n)` (the last four), then the
marker-bearing middle steps of `range(1, n - 4)`, finally sorted
ascending by index (`important_steps.sort(key=lambda x: x[0])`, a stable
sort on distinct keys). -/
def keptIndices (steps : List (List Char)) : List Nat :=
  List.insertionSort (· ≤ ·)
    ([0] ++
      List.range' (max 1 (steps.length - 4))
        (steps.length - max 1 (steps.length - 4)) ++
      (List.range' 1 (steps.length - 5)).filter
        (fun i => stepHasMarker (steps.getD i [])))

/-- Embedding of `ThinkingEngine.prepare_truncated_reasoning`: empty
trace gives `""`; at most five steps render every step; otherwise only
the kept indices are rendered, with `...` separators at the gaps; the
result is stripped. -/
def prepare_truncated_reasoning (steps : List (List Char)) : List Char :=
  if steps = [] then []
  else if steps.length ≤ 5 then
    stripChars (((List.range steps.length).map (stepEntry steps)).flatten)
  else
    stripChars (renderKept steps (-1) (keptIndices steps))

/-- The claim's description of the kept indices: first step, last four
steps, and marker-bearing middle steps, in increasing index order. -/
def specKeptIndices (steps : List (List Char)) : List Nat :=
  (List.range steps.length).filter
    (fun i => decide (i = 0 ∨ steps.length - 4 ≤ i ∨ stepHasMarker (steps.getD i []) = true))

theorem containsSub_nil_pat (l : List Char) : containsSub l [] = true := by
  cases l with
  | nil => rfl
  | cons c t => simp [containsSub, List.isPrefixOf]

theorem rstrip_eq_nil_iff {B : List Char} :
    rstripChars B = [] ↔ ∀ c ∈ B, pyIsSpace c = true := by
  unfold rstripChars
  rw [List.reverse_eq_nil_iff, List.dropWhile_eq_nil_iff]
  constructor
  · intro h c hc; exact h c (by simpa using hc)
  · intro h c hc; exact h c (by simpa using hc)

/-- The central containment lemma: if the rendered text decomposes as
`A ++ s ++ B` and starts with a non-whitespace character, its stripped
form still contains `rstrip s`. -/
theorem contains_rstrip_of_parts (A s B : List Char)
    (hhead : lstripChars (A ++ (s ++ B)) = A ++ (s ++ B)) :
    containsSub (stripChars (A ++ (s ++ B))) (rstripChars s) = true := by
  unfold stripChars
  rw [hhead]
  by_cases hB : rstripChars B = []
  · have hall : ∀ c ∈ B, pyIsSpace c = true := rstrip_eq_nil_iff.mp hB
    rw [← List.append_assoc, rstrip_append_all hall]
    by_cases hs : rstripChars s = []
    · rw [hs]; exact containsSub_nil_pat _
    · rw [rstrip_append_ne hs]
      have := containsSub_decomp A (rstripChars s) []
      simpa using this
  · rw [← List.append_assoc, rstrip_append_ne hB]
    obtain ⟨w, hw, _⟩ := rstrip_decomp s
    have hre : A ++ s ++ rstripChars B
        = A ++ (rstripChars s ++ (w ++ rstripChars B)) := by
      conv_lhs => rw [hw]
      simp [List.append_assoc]
    rw [hre]
    exact containsSub_decomp A (rstripChars s) (w ++ rstripChars B)

/-- Every element of a rendered index list yields a decomposition of the
rendered text around that step's content. -/
theorem renderKept_decomp (steps : List (List Char)) :
    ∀ (idxs : List Nat) (prev : Int) (i : Nat), i ∈ idxs →
      ∃ A B, renderKept steps prev idxs = A ++ (steps.getD i [] ++ B) := by
  intro idxs
  induction idxs with
  | nil => intro prev i hi; cases hi
  | cons j rest ih =>
    intro prev i hi
    cases hi with
    | head =>
      refine ⟨(if prev + 1 < (j : Int) then "...\n\n".data else []) ++
        ("Step " ++ toString (j + 1) ++ ": ").data,
        "\n\n".data ++ renderKept steps j rest, ?_⟩
      simp [renderKept, stepEntry, List.append_assoc]
    | tail _ hi =>
      obtain ⟨A, B, hAB⟩ := ih j i hi
      refine ⟨(if prev + 1 < (j : Int) then "...\n\n".data else []) ++
        stepEntry steps j ++ A, B, ?_⟩
      simp [renderKept, hAB, List.append_assoc]

theorem flatten_entries_decomp (steps : List (List Char)) :
    ∀ (idxs : List Nat) (i : Nat), i ∈ idxs →
      ∃ A B, (idxs.map (stepEntry steps)).flatten = A ++ (steps.getD i [] ++ B) := by
  intro idxs
  induction idxs with
  | nil => intro i hi; cases hi
  | cons j rest ih =>
    intro i hi
    cases hi with
    | head =>
      refine ⟨("Step " ++ toString (j + 1) ++ ": ").data,
        "\n\n".data ++ (rest.map (stepEntry steps)).flatten, ?_⟩
      simp [stepEntry, List.append_assoc]
    | tail _ hi =>
      obtain ⟨A, B, hAB⟩ := ih i hi
      exact ⟨stepEntry steps j ++ A, B, by simp [hAB, List.append_assoc]⟩

theorem stepEntry_head (steps : List (List Char)) (i : Nat) :
    ∃ t, stepEntry steps i = 'S' :: t := by
  refine ⟨("tep " ++ toString (i + 1) ++ ": ").data ++ steps.getD i [] ++ "\n\n".data, ?_⟩
  unfold stepEntry
  have : ("Step " ++ toString (i + 1) ++ ": ").data
      = 'S' :: ("tep " ++ toString (i + 1) ++ ": ").data := by
    simp [String.data_append]
  rw [this]
  simp

theorem keptIndices_eq_spec (steps : List (List Char)) (h5 : 5 < steps.length) :
    keptIndices steps = specKeptIndices steps := by
  haveI : IsAntisymm ℕ (· < ·) := ⟨fun a b h1 h2 => absurd h2 (Nat.lt_asymm h1)⟩
  have hmax : max 1 (steps.length - 4) = steps.length - 4 := by omega
  unfold keptIndices specKeptIndices
  rw [hmax]
  have hLnodup : ([0] ++
      List.range' (steps.length - 4) (steps.length - (steps.length - 4)) ++
      (List.range' 1 (steps.length - 5)).filter
        (fun i => stepHasMarker (steps.getD i []))).Nodup := by
    rw [List.nodup_append, List.nodup_append]
    refine ⟨⟨List.nodup_singleton 0, List.nodup_range' _ _, ?_⟩,
      (List.nodup_range' _ _).filter _, ?_⟩
    · rw [List.disjoint_left]
      intro a ha hmem
      rw [List.mem_singleton] at ha
      rw [List.mem_range'_1] at hmem
      omega
    · rw [List.disjoint_left]
      intro a ha hb
      rw [List.mem_filter, List.mem_range'_1] at hb
      rw [List.mem_append, List.mem_singleton, List.mem_range'_1] at ha
      omega
  apply List.eq_of_perm_of_sorted (r := (· < ·))
  · refine (List.perm_insertionSort _ _).trans ?_
    refine (List.perm_ext_iff_of_nodup hLnodup ((List.nodup_range _).filter _)).mpr ?_
    intro a
    rw [List.mem_append, List.mem_append, List.mem_singleton, List.mem_range'_1,
      List.mem_filter, List.mem_range'_1, List.mem_filter, List.mem_range,
      decide_eq_true_eq]
    constructor
    · rintro ((rfl | ⟨h1, h2⟩) | ⟨⟨hb1, hb2⟩, hpa⟩)
      · exact ⟨by omega, Or.inl rfl⟩
      · exact ⟨by omega, Or.inr (Or.inl (by omega))⟩
      · exact ⟨by omega, Or.inr (Or.inr hpa)⟩
    · rintro ⟨hlt, (rfl | h4 | hpa)⟩
      · exact Or.inl (Or.inl rfl)
      · exact Or.inl (Or.inr ⟨by omega, by omega⟩)
      · by_cases h0 : a = 0
        · exact Or.inl (Or.inl h0)
        · by_cases h4' : steps.length - 4 ≤ a
          · exact Or.inl (Or.inr ⟨by omega, by omega⟩)
          · exact Or.inr ⟨⟨by omega, by omega⟩, hpa⟩
  · exact List.Sorted.lt_of_le (List.sorted_insertionSort _ _)
      ((List.perm_insertionSort _ _).symm.nodup hLnodup)
  · exact (List.pairwise_lt_range _).filter _

theorem range_eq_cons (n : Nat) (hn : 1 ≤ n) :
    List.range n = 0 :: List.range' 1 (n - 1) := by
  obtain ⟨m, rfl⟩ : ∃ m, n = m + 1 := ⟨n - 1, by omega⟩
  rw [List.range_eq_range', List.range'_succ]
  simp

/-- Any index kept by `prepare_truncated_reasoning` has its step content
(with trailing whitespace removed) as a substring of the output. -/
theorem prepare_contains_kept (steps : List (List Char)) (hne : steps ≠ []) (i : Nat)
    (hi : (steps.length ≤ 5 ∧ i < steps.length) ∨
      (5 < steps.length ∧ i ∈ keptIndices steps)) :
    containsSub (prepare_truncated_reasoning steps)
      (rstripChars (steps.getD i [])) = true := by
  have hn1 : 1 ≤ steps.length := List.length_pos.mpr hne
  unfold prepare_truncated_reasoning
  rw [if_neg hne]
  rcases hi with ⟨hle, hlt⟩ | ⟨h5, hkept⟩
  · rw [if_pos hle]
    obtain ⟨A, B, hAB⟩ := flatten_entries_decomp steps (List.range steps.length) i
      (List.mem_range.mpr hlt)
    rw [hAB]
    apply contains_rstrip_of_parts
    rw [← hAB, range_eq_cons _ hn1]
    simp only [List.map_cons, List.flatten_cons]
    obtain ⟨t, ht⟩ := stepEntry_head steps 0
    rw [ht]
    simp only [List.cons_append]
    exact lstrip_cons_not_space (by decide)
  · rw [if_neg (by omega : ¬ steps.length ≤ 5)]
    obtain ⟨A, B, hAB⟩ := renderKept_decomp steps (keptIndices steps) (-1) i hkept
    rw [hAB]
    apply contains_rstrip_of_parts
    rw [← hAB]
    have hkz : ∃ rest, keptIndices steps = 0 :: rest := by
      rw [keptIndices_eq_spec steps h5]
      unfold specKeptIndices
      rw [range_eq_cons _ hn1, List.filter_cons]
      rw [if_pos (by simp)]
      exact ⟨_, rfl⟩
    obtain ⟨rest, hkz⟩ := hkz
    rw [hkz]
    simp only [renderKept]
    rw [if_neg (by norm_num)]
    obtain ⟨t, ht⟩ := stepEntry_head steps 0
    rw [ht]
    simp only [List.nil_append, List.cons_append]
    exact lstrip_cons_not_space (by decide)

/-- A concrete six-step trace whose last step carries trailing
whitespace. -/
def c5Steps : List (List Char) :=
  ["alpha".data, "beta".data, "gamma".data, "delta".data, "epsilon".data,
    "zeta ".data]

/-- C5 counterexample: the output of `prepare_truncated_reasoning` does
NOT always contain the last step verbatim — the final `strip()` removes
the trailing whitespace of the last rendered step, so a last step with a
trailing space is not a substring of the output. -/
theorem c5_trailing_whitespace_lost :
    containsSub (prepare_truncated_reasoning c5Steps) ("zeta ".data) = false := by
  decide

/-- C5 (amended): for a trace with more than five steps the output is
exactly the stripped rendering (with `...` separators at the gaps) of
step 1, the last four steps and every marker-bearing middle step, in
increasing index order; and for every non-empty trace the output
contains the first step and each of the last `min 4 (n − 1)` steps up to
removal of trailing whitespace (the final `strip()` erases trailing
whitespace of the last kept step). -/
theorem prepare_truncated_reasoning_spec (steps : List (List Char))
    (hne : steps ≠ []) :
    (5 < steps.length →
      prepare_truncated_reasoning steps
        = stripChars (renderKept steps (-1) (specKeptIndices steps))) ∧
    containsSub (prepare_truncated_reasoning steps)
      (rstripChars (steps.getD 0 [])) = true ∧
    (∀ i, steps.length - min 4 (steps.length - 1) ≤ i → i < steps.length →
      containsSub (prepare_truncated_reasoning steps)
        (rstripChars (steps.getD i [])) = true) := by
  have hn1 : 1 ≤ steps.length := List.length_pos.mpr hne
  refine ⟨?_, ?_, ?_⟩
  · intro h5
    unfold prepare_truncated_reasoning
    rw [if_neg hne, if_neg (by omega : ¬ steps.length ≤ 5),
      keptIndices_eq_spec steps h5]
  · apply prepare_contains_kept steps hne 0
    by_cases h5 : steps.length ≤ 5
    · exact Or.inl ⟨h5, by omega⟩
    · refine Or.inr ⟨by omega, ?_⟩
      rw [keptIndices_eq_spec steps (by omega)]
      unfold specKeptIndices
      rw [List.mem_filter, List.mem_range]
      exact ⟨by omega, by simp⟩
  · intro i hge hlt
    apply prepare_contains_kept steps hne i
    by_cases h5 : steps.length ≤ 5
    · exact Or.inl ⟨h5, hlt⟩
    · refine Or.inr ⟨by omega, ?_⟩
      rw [keptIndices_eq_spec steps (by omega)]
      unfold specKeptIndices
      rw [List.mem_filter, List.mem_range, decide_eq_true_eq]
      exact ⟨hlt, Or.inr (Or.inl (by omega))⟩

/-- Witness for the C5 amended theorem on the concrete six-step trace. -/
theorem prepare_truncated_reasoning_spec_witness :
    prepare_truncated_reasoning c5Steps
        = stripChars (renderKept c5Steps (-1) (specKeptIndices c5Steps)) ∧
      containsSub (prepare_truncated_reasoning c5Steps)
        (rstripChars (c5Steps.getD 5 [])) = true :=
  ⟨(prepare_truncated_reasoning_spec c5Steps (by decide)).1 (by decide),
    (prepare_truncated_reasoning_spec c5Steps (by decide)).2.2 5 (by decide)
      (by decide)⟩

/-! ## C8: `generate_hypotheses` (`thinking.py`, lines 66–167)

`json.loads` is embedded as a small executable JSON parser over the
fragment the code relies on (strings without escapes, integers, booleans,
null, arrays, objects); inputs outside the fragment parse as failures,
which the code maps to the regex fallback. -/

/-- JSON values as produced by `json.loads`. -/
inductive Json where
  | str (s : List Char)
  | num (n : Int)
  | bool (b : Bool)
  | null
  | arr (xs : List Json)
  | obj (fields : List (List Char × Json))

/-- Opening brace character. -/
def lbrace : Char := Char.ofNat 123

/-- Closing brace character. -/
def rbrace : Char := Char.ofNat 125

def skipWs (l : List Char) : List Char := l.dropWhile pyIsSpace

def isDigitCh (c : Char) : Bool := '0' ≤ c && c ≤ '9'

def digitsToNat (ds : List Char) : Nat :=
  ds.foldl (fun acc c => acc * 10 + (c.toNat - '0'.toNat)) 0

/-- Body of a JSON string after the opening quote (escape-free fragment). -/
def parseStrBody (l : List Char) : Option (List Char × List Char) :=
  let cap := l.takeWhile (fun d => decide (d ≠ '"') && decide (d ≠ '\\'))
  match l.drop cap.length with
  | '"' :: r => some (cap, r)
  | _ => none

mutual

def parseVal : Nat → List Char → Option (Json × List Char)
  | 0, _ => none
  | f + 1, l =>
    match skipWs l with
    | [] => none
    | c :: rest =>
      if c = '"' then
        (parseStrBody rest).map (fun p => (.str p.1, p.2))
      else if c = '[' then
        match skipWs rest with
        | ']' :: r => some (.arr [], r)
        | _ => parseArrItems f rest []
      else if c = lbrace then
        match skipWs rest with
        | d :: r => if d = rbrace then some (.obj [], r) else parseObjItems f rest []
        | [] => none
      else if c = 't' then
        if "rue".data.isPrefixOf rest then some (.bool true, rest.drop 3) else none
      else if c = 'f' then
        if "alse".data.isPrefixOf rest then some (.bool false, rest.drop 4) else none
      else if c = 'n' then
        if "ull".data.isPrefixOf rest then some (.null, rest.drop 3) else none
      else if c = '-' || isDigitCh c then
        let neg := c = '-'
        let l2 := if neg then rest else c :: rest
        let ds := l2.takeWhile isDigitCh
        if ds.isEmpty then none
        else
          match l2.drop ds.length with
          | '.' :: _ => none
          | 'e' :: _ => none
          | 'E' :: _ => none
          | r =>
            some (.num (if neg then -(digitsToNat ds : Int) else (digitsToNat ds : Int)), r)
      else none

def parseArrItems : Nat → List Char → List Json → Option (Json × List Char)
  | 0, _, _ => none
  | f + 1, l, acc =>
    match parseVal f l with
    | none => none
    | some (v, r) =>
      match skipWs r with
      | ',' :: r2 => parseArrItems f r2 (acc ++ [v])
      | ']' :: r2 => some (.arr (acc ++ [v]), r2)
      | _ => none

def parseObjItems : Nat → List Char → List (List Char × Json) → Option (Json × List Char)
  | 0, _, _ => none
  | f + 1, l, acc =>
    match skipWs l with
    | '"' :: rest =>
      match parseStrBody rest with
      | none => none
      | some (k, r) =>
        match skipWs r with
        | ':' :: r2 =>
          match parseVal f r2 with
          | none => none
          | some (v, r3) =>
            match skipWs r3 with
            | ',' :: r4 => parseObjItems f r4 (acc ++ [(k, v)])
            | d :: r4 => if d = rbrace then some (.obj (acc ++ [(k, v)]), r4) else none
            | [] => none
        | _ => none
    | _ => none

end

/-- Embedding of `json.loads` on the fragment used by the code: the whole
input (up to surrounding whitespace) must parse. -/
def jsonParse (s : List Char) : Option Json :=
  match parseVal (s.length + 1) s with
  | some (v, r) => if skipWs r = [] then some v else none
  | none => none

/-- Embedding of `re.search(r'\[.*\]', content, re.DOTALL)`: the match
runs from the first `[` that has some `]` after it to the LAST `]` of
the text (greedy `.*` under DOTALL). -/
def lastIdxOf (ch : Char) : List Char → Option Nat
  | [] => none
  | c :: t =>
    match lastIdxOf ch t with
    | some j => some (j + 1)
    | none => if c = ch then some 0 else none

def bracketSegment : List Char → Option (List Char)
  | [] => none
  | c :: t =>
    if c = '[' then
      match lastIdxOf ']' t with
      | some j => some ('[' :: t.take (j + 1))
      | none => bracketSegment t
    else bracketSegment t

/-- Matches the header fragment `假设\s*\d+[:：]?` at the head of the
text, returning the remainder. -/
def headerCore : List Char → Option (List Char)
  | '假' :: '设' :: rest =>
    let r0 := rest.dropWhile pyIsSpace
    let ds := r0.takeWhile isDigitCh
    if ds.isEmpty then none
    else
      match r0.drop ds.length with
      | c :: t => if c = ':' || c = '：' then some t else some (c :: t)
      | [] => some []
  | _ => none

/-- The full header `假设\s*\d+[:：]?\s*` (the greedy `\s*` before the
lazy capture group). -/
def headerAt (l : List Char) : Option (List Char) :=
  (headerCore l).map (·.dropWhile pyIsSpace)

/-- Lazy capture `(.*?)(?=假设\s*\d+[:：]?|$)`: take characters up to the
next header occurrence or the end of the text. -/
def capTo : Nat → List Char → List Char
  | 0, _ => []
  | _, [] => []
  | f + 1, c :: t =>
    if (headerCore (c :: t)).isSome then [] else c :: capTo f t

def hypSegsGo : Nat → List Char → List (List Char)
  | 0, _ => []
  | _, [] => []
  | f + 1, c :: t =>
    match headerAt (c :: t) with
    | some rest =>
      let cap := capTo rest.length rest
      cap :: hypSegsGo f (rest.drop cap.length)
    | none => hypSegsGo f t

/-- All captures of `re.findall(r'假设\s*\d+[:：]?\s*(.*?)(?=假设\s*\d+[:：]?|$)', content, re.DOTALL)`. -/
def hypSegs (content : List Char) : List (List Char) :=
  hypSegsGo content.length content

/-- `re.split(r'理由[:：]', match, 1)`: split at the first `理由:` /
`理由：` occurrence, if any. -/
def splitReason : List Char → Option (List Char × List Char)
  | '理' :: '由' :: ':' :: r => some ([], r)
  | '理' :: '由' :: '：' :: r => some ([], r)
  | c :: t => (splitReason t).map (fun p => (c :: p.1, p.2))
  | [] => none

/-- One fallback hypothesis built from a captured segment. -/
def mkHyp (seg : List Char) : Json :=
  match splitReason seg with
  | some (h, r) =>
    .obj [("hypothesis".data, .str (stripChars h)),
      ("reasoning".data, .str (stripChars r))]
  | none =>
    .obj [("hypothesis".data, .str (stripChars seg)), ("reasoning".data, .str [])]

/-- The default hypothesis created when the regex finds nothing. -/
def defaultHypothesis : Json :=
  .obj [("hypothesis".data, .str "问题可能需要更多背景信息".data),
    ("reasoning".data, .str "初步思考中没有明确的答案方向".data)]

/-- `ThinkingEngine._extract_hypotheses_fallback`: regex extraction with
a guaranteed default hypothesis when nothing matches. -/
def extract_hypotheses_fallback (content : List Char) : List Json :=
  let segs := hypSegs content
  if segs.isEmpty then [defaultHypothesis] else segs.map mkHyp

/-- Python dict key lookup for JSON objects. -/
def jlookup : List (List Char × Json) → List Char → Option Json
  | [], _ => none
  | (k', v) :: r, k => if k' = k then some v else jlookup r k

/-- Whether accessing `hyp['hypothesis']` and `hyp['reasoning']` succeeds
(anything else raises inside the `try`, routing to the fallback). -/
def isHypDict (j : Json) : Bool :=
  match j with
  | .obj fs => (jlookup fs "hypothesis".data).isSome &&
      (jlookup fs "reasoning".data).isSome
  | _ => false

/-- Embedding of `ThinkingEngine.generate_hypotheses` as a function of the
LLM response content (the appended reasoning step is a side effect not
needed here): parse a JSON array out of the first-`[`-to-last-`]`
segment; on a successful parse whose items all carry both keys the items
are returned as-is (even when the array is empty); any parse or access
failure, or the absence of a bracketed segment, routes to the regex
fallback. -/
def generate_hypotheses (content : List Char) : List Json :=
  match bracketSegment content with
  | some seg =>
    match jsonParse seg with
    | some (.arr items) =>
      if items.all isHypDict then items else extract_hypotheses_fallback content
    | some _ => extract_hypotheses_fallback content
    | none => extract_hypotheses_fallback content
  | none => extract_hypotheses_fallback content

/-- C8 counterexample: `generate_hypotheses` does NOT always return a
non-empty list — a response whose bracketed segment is the empty JSON
array `[]` parses successfully and is returned as-is, yielding zero
hypotheses. -/
theorem c8_empty_array_yields_no_hypotheses :
    generate_hypotheses "[]".data = [] := rfl

theorem extract_hypotheses_fallback_ne_nil (c : List Char) :
    extract_hypotheses_fallback c ≠ [] := by
  unfold extract_hypotheses_fallback
  by_cases h : (hypSegs c).isEmpty
  · rw [if_pos h]; simp
  · rw [if_neg h]
    rw [List.isEmpty_iff] at h
    simpa using h

/-- C8 (amended): `generate_hypotheses` returns the empty list exactly
when the response's bracketed segment parses as the empty JSON array;
in every other case — no bracketed segment, a parse failure, a
malformed item, or a non-empty well-formed array — it returns at least
one hypothesis (the regex fallback guarantees one, by a default
hypothesis if necessary). -/
theorem generate_hypotheses_empty_iff (content : List Char) :
    generate_hypotheses content = [] ↔
      ∃ seg, bracketSegment content = some seg ∧
        jsonParse seg = some (Json.arr []) := by
  constructor
  · intro h
    cases hbs : bracketSegment content with
    | none =>
      simp only [generate_hypotheses, hbs] at h
      exact absurd h (extract_hypotheses_fallback_ne_nil content)
    | some seg =>
      cases hjp : jsonParse seg with
      | none =>
        simp only [generate_hypotheses, hbs, hjp] at h
        exact absurd h (extract_hypotheses_fallback_ne_nil content)
      | some j =>
        cases j with
        | arr items =>
          simp only [generate_hypotheses, hbs, hjp] at h
          by_cases hall : items.all isHypDict
          · rw [if_pos hall] at h
            subst h
            exact ⟨seg, rfl, hjp⟩
          · rw [if_neg hall] at h
            exact absurd h (extract_hypotheses_fallback_ne_nil content)
        | str s =>
          simp only [generate_hypotheses, hbs, hjp] at h
          exact absurd h (extract_hypotheses_fallback_ne_nil content)
        | num n =>
          simp only [generate_hypotheses, hbs, hjp] at h
          exact absurd h (extract_hypotheses_fallback_ne_nil content)
        | bool b =>
          simp only [generate_hypotheses, hbs, hjp] at h
          exact absurd h (extract_hypotheses_fallback_ne_nil content)
        | null =>
          simp only [generate_hypotheses, hbs, hjp] at h
          exact absurd h (extract_hypotheses_fallback_ne_nil content)
        | obj fs =>
          simp only [generate_hypotheses, hbs, hjp] at h
          exact absurd h (extract_hypotheses_fallback_ne_nil content)
  · rintro ⟨seg, hbs, hjp⟩
    simp only [generate_hypotheses, hbs, hjp]
    simp

/-! ## C7: entity extraction heuristic
(`agent_coordinator.py`, `_extract_entities_from_results`, lines 409–443)

Each regex is embedded as a left-to-right, non-overlapping scanner with
greedy sub-matches (the patterns are deterministic on their character
classes; regex backtracking can differ only on whitespace-only captures,
which the length filter discards). -/

def isUpperCh (c : Char) : Bool := 'A' ≤ c && c ≤ 'Z'

def isLowerCh (c : Char) : Bool := 'a' ≤ c && c ≤ 'z'

/-- Character class `[^,，\n]` of the `实体` tag capture. -/
def tagCapClass (c : Char) : Bool := !(c = ',' || c = '，' || c = '\n')

/-- Pattern `实体\s*[:：]\s*([^,，\n]+)` matched at the head of the text,
returning the capture and the remainder after the match. -/
def entityTagAt : List Char → Option (List Char × List Char)
  | '实' :: '体' :: r =>
    let r1 := r.dropWhile pyIsSpace
    match r1 with
    | c :: t =>
      if c = ':' || c = '：' then
        let r2 := t.dropWhile pyIsSpace
        let cap := r2.takeWhile tagCapClass
        if cap.isEmpty then none else some (cap, r2.drop cap.length)
      else none
    | [] => none
  | _ => none

/-- One `[A-Z][a-z]+` word at the head. -/
def word2At : List Char → Option (List Char × List Char)
  | c :: t =>
    if isUpperCh c then
      let ls := t.takeWhile isLowerCh
      if ls.isEmpty then none else some (c :: ls, t.drop ls.length)
    else none
  | [] => none

/-- `\s+` at the head. -/
def wsPlus (l : List Char) : Option (List Char × List Char) :=
  let ws := l.takeWhile pyIsSpace
  if ws.isEmpty then none else some (ws, l.drop ws.length)

/-- Pattern `([A-Z][a-z]+(?:\s+[A-Z][a-z]+){1,2})` at the head: a
capitalized word followed greedily by one or two more. -/
def capsAt (l : List Char) : Option (List Char × List Char) :=
  match word2At l with
  | none => none
  | some (w1, r1) =>
    match wsPlus r1 with
    | none => none
    | some (s1, r2) =>
      match word2At r2 with
      | none => none
      | some (w2, r3) =>
        match wsPlus r3 with
        | some (s2, r4) =>
          match word2At r4 with
          | some (w3, r5) => some (w1 ++ s1 ++ w2 ++ s2 ++ w3, r5)
          | none => some (w1 ++ s1 ++ w2, r3)
        | none => some (w1 ++ s1 ++ w2, r3)

/-- Pattern `【([^】]+)】` at the head. -/
def cnBracketAt : List Char → Option (List Char × List Char)
  | '【' :: t =>
    let cap := t.takeWhile (fun c => decide (c ≠ '】'))
    if cap.isEmpty then none
    else
      match t.drop cap.length with
      | _ :: r => some (cap, r)
      | [] => none
  | _ => none

/-- Pattern `"([^"]+)"` at the head. -/
def quoteAt : List Char → Option (List Char × List Char)
  | '"' :: t =>
    let cap := t.takeWhile (fun c => decide (c ≠ '"'))
    if cap.isEmpty then none
    else
      match t.drop cap.length with
      | _ :: r => some (cap, r)
      | [] => none
  | _ => none

/-- `re.findall` driver: scan left to right; on a match emit the capture
and continue after the match, otherwise advance one character. -/
def scanAll (m : List Char → Option (List Char × List Char)) :
    Nat → List Char → List (List Char)
  | 0, _ => []
  | _, [] => []
  | f + 1, l@(_ :: t) =>
    match m l with
    | some (cap, rest) => cap :: scanAll m f rest
    | none => scanAll m f t

/-- All captures of the four entity patterns over one text, in the
pattern order of the source. -/
def textMatches (text : List Char) : List (List Char) :=
  scanAll entityTagAt text.length text ++ scanAll capsAt text.length text ++
    scanAll cnBracketAt text.length text ++ scanAll quoteAt text.length text

/-- Captures over a list of texts, stripped, filtered to
`1 < len < 30`, and deduplicated (the Python `set`; its iteration order
is unspecified, so claims are stated on the underlying set). -/
def extractList (texts : List (List Char)) : List (List Char) :=
  (((texts.map textMatches).flatten).map stripChars).filter
    (fun e => decide (1 < e.length ∧ e.length < 30)) |>.dedup

/-- The extracted entity set. -/
def extractFromTexts (texts : List (List Char)) : Finset (List Char) :=
  (extractList texts).toFinset

/-- `_extract_entities_from_results(local, global, exploration)`: the
loop `if not isinstance(text, str): continue` skips the list-valued
global-search results, so only the local and exploration strings
contribute. -/
def extract_entities_from_results (localR : List (List Char))
    (_globalR : List (List (List Char))) (explR : List (List Char)) :
    List (List Char) :=
  extractList (localR ++ explR)

/-! ## C6: coordinator thinking gate (`process_query`, lines 244–390) -/

/-- A retrieval plan as consumed by `process_query`
(`complexity_assessment` read with `.get(..., 0)`). -/
structure Plan where
  complexity : Option ℚ
  tasks : List Task

/-- A structured chain-of-exploration result
(`{exploration_path: [{step, node_id, reasoning}], content: [...]}`). -/
structure ChainResult where
  exploration_path : List (Nat × List Char × List Char)
  content : List (List Char)

/-- The external collaborators of `process_query`: the LLM texts and the
four retrievers, each either returning a value or raising
(`Except.error` carries the exception text). -/
structure CoordEnv where
  initialThinking : List Char
  finalThinking : List Char
  localSearch : List Char → Except (List Char) (List Char)
  globalSearch : List Char → Except (List Char) (List (List Char))
  exploration : List Char → Except (List Char) (List Char)
  chainExplore : List Char → List (List Char) →
    Except (List Char) (Option ChainResult)

/-- The mutable run state of one `process_query` call: the thinking
engine, the execution trace (event types), the four result buckets and a
logical clock supplying `time.time()` values. -/
structure RunState where
  engine : ThinkingEngine
  trace : List String
  localResults : List (List Char)
  globalResults : List (List (List Char))
  explorationResults : List (List Char)
  chainResults : List ChainResult
  clock : Nat

/-- `self._log_step(event_type, ...)`. -/
def logStep (st : RunState) (ev : String) : RunState :=
  { st with trace := st.trace ++ [ev] }

/-- `self.thinking_engine.add_reasoning_step(content)` at the current
clock. -/
def addStepClk (st : RunState) (c : List Char) : RunState :=
  { st with engine := addReasoningStep st.engine c st.clock, clock := st.clock + 1 }

/-- `str(result)` for a Python list of strings (element quoting without
escape handling). -/
def pyRepr (s : List Char) : List Char :=
  Char.ofNat 39 :: s ++ [Char.ofNat 39]

def pyStrOfStrList (xs : List (List Char)) : List Char :=
  '[' :: List.intercalate ", ".data (xs.map pyRepr) ++ "]".data

/-- `_summarize_result` on a string result. -/
def summarize_str (r : List Char) : List Char :=
  if 500 < r.length then r.take 500 ++ "...".data else r

/-- `_summarize_result` on a list result (`str(result)[:500] + "..."`,
unconditionally suffixed). -/
def summarize_list (xs : List (List Char)) : List Char :=
  (pyStrOfStrList xs).take 500 ++ "...".data

/-- The reasoning step recorded for each task:
`f"执行任务: {task_type} - {task_query}"`. -/
def taskStepContent (query : List Char) (t : Task) : List Char :=
  "执行任务: ".data ++ t.ty ++ " - ".data ++ t.query.getD query

/-- The chain-of-exploration path summary appended to the engine. -/
def chainSummary (r : ChainResult) : List Char :=
  "Chain of Exploration结果:\n探索路径:\n".data ++
    ((r.exploration_path.take 5).map (fun p =>
      "- 步骤".data ++ (toString p.1).data ++ ": ".data ++ p.2.1 ++
        " (".data ++ p.2.2 ++ ")\n".data)).flatten

def runLocal (env : CoordEnv) (st : RunState) (q : List Char) : RunState :=
  let st := logStep st "local_search"
  match env.localSearch q with
  | .ok r =>
    let st :=
      if r.isEmpty then st
      else
        let st := { st with localResults := st.localResults ++ [r] }
        addStepClk st ("本地搜索结果摘要:\n".data ++ summarize_str r)
    logStep st "local_search_completed"
  | .error _ => logStep st "local_search_error"

def runGlobal (env : CoordEnv) (st : RunState) (q : List Char) : RunState :=
  let st := logStep st "global_search"
  match env.globalSearch q with
  | .ok r =>
    let st :=
      if r.isEmpty then st
      else
        let st := { st with globalResults := st.globalResults ++ [r] }
        addStepClk st ("全局搜索结果摘要:\n".data ++ summarize_list r)
    logStep st "global_search_completed"
  | .error _ => logStep st "global_search_error"

def runExploration (env : CoordEnv) (st : RunState) (q : List Char) : RunState :=
  let st := logStep st "exploration"
  match env.exploration q with
  | .ok r =>
    let st :=
      if r.isEmpty then st
      else
        let st := { st with explorationResults := st.explorationResults ++ [r] }
        addStepClk st ("深度探索结果摘要:\n".data ++ summarize_str r)
    logStep st "exploration_completed"
  | .error _ => logStep st "exploration_error"

def runChain (env : CoordEnv) (st : RunState) (q : List Char)
    (entities0 : List (List Char)) : RunState :=
  let st := logStep st "chain_exploration"
  let entities :=
    if entities0.isEmpty then
      extract_entities_from_results st.localResults st.globalResults
        st.explorationResults
    else entities0
  if entities.isEmpty then logStep st "chain_exploration_warning"
  else
    match env.chainExplore q (entities.take 3) with
    | .ok (some result) =>
      let st := { st with chainResults := st.chainResults ++ [result] }
      let st := addStepClk st (chainSummary result)
      logStep st "chain_exploration_completed"
    | .ok none => logStep st "chain_exploration_completed"
    | .error _ => logStep st "chain_exploration_error"

/-- One iteration of the task loop of `process_query` (lines 276–351):
the `执行任务` step is appended for EVERY task, before dispatch on the
task type. -/
def runTask (env : CoordEnv) (query : List Char) (st : RunState) (t : Task) :
    RunState :=
  let task_query := t.query.getD query
  let st := addStepClk st (taskStepContent query t)
  if t.ty = "local_search".data then runLocal env st task_query
  else if t.ty = "global_search".data then runGlobal env st task_query
  else if t.ty = "exploration".data then runExploration env st task_query
  else if t.ty = "chain_exploration".data then runChain env st task_query t.entities
  else st

/-- Lines 244–263 of `process_query`: trace start, UNCONDITIONAL
Thinking-Engine initialization (line 254), and the
`complexity > 0.7`-gated initial thinking. -/
def initStage (env : CoordEnv) (query : List Char) (plan : Plan) : RunState :=
  let st0 : RunState :=
    { engine := mkThinkingEngine, trace := [], localResults := []
      globalResults := [], explorationResults := [], chainResults := []
      clock := 0 }
  let st := logStep (logStep st0 "generating_plan") "plan_generated"
  let st := logStep st "thinking_init"
  let st := { st with engine := initWithQuery st.engine query }
  if plan.complexity.getD 0 > 7 / 10 then
    let st := logStep st "initial_thinking"
    let st := addStepClk st env.initialThinking
    logStep st "initial_thinking_complete"
  else st

/-- Lines 353–390 of `process_query`: the gated final thinking update
(`update_thinking_based_on_verification([])` appends the empty-counts
verification summary and the updated thinking) and the synthesis
events. -/
def finalStage (env : CoordEnv) (plan : Plan) (st : RunState) : RunState :=
  let st :=
    if plan.complexity.getD 0 > 7 / 10 then
      let st := logStep st "final_thinking"
      let st := addStepClk st "基于所有搜索结果，更新我的思考".data
      let st := addStepClk st
        ("验证结果汇总:\n- 被支持的假设: 0\n- 被拒绝的假设: 0\n- 不确定的假设: 0\n".data)
      let st := addStepClk st ("更新后的思考:\n\n".data ++ env.finalThinking)
      logStep st "final_thinking_complete"
    else st
  let st := logStep st "synthesizing"
  logStep st "synthesis_completed"

/-- Embedding of `GraphRAGAgentCoordinator.process_query` (planner and
synthesizer outputs supplied by the environment/plan): initial stage,
the priority-sorted task loop, and the final stage. -/
def process_query (env : CoordEnv) (query : List Char) (plan : Plan) :
    RunState :=
  finalStage env plan
    ((sortedTasksDesc plan.tasks).foldl (runTask env query)
      (initStage env query plan))

/-- The trace event types that the task loop can emit. -/
def taskEvents : List String :=
  ["local_search", "local_search_completed", "local_search_error",
    "global_search", "global_search_completed", "global_search_error",
    "exploration", "exploration_completed", "exploration_error",
    "chain_exploration", "chain_exploration_warning",
    "chain_exploration_completed", "chain_exploration_error"]

theorem runLocal_trace (env : CoordEnv) (st : RunState) (q : List Char) :
    ∃ new, (runLocal env st q).trace = st.trace ++ new ∧
      ∀ ev ∈ new, ev ∈ taskEvents := by
  unfold runLocal
  cases env.localSearch q with
  | ok r =>
    by_cases hr : r.isEmpty
    · exact ⟨["local_search", "local_search_completed"],
        by simp [logStep, hr], by decide⟩
    · exact ⟨["local_search", "local_search_completed"],
        by simp [logStep, addStepClk, hr], by decide⟩
  | error e =>
    exact ⟨["local_search", "local_search_error"], by simp [logStep], by decide⟩

theorem runGlobal_trace (env : CoordEnv) (st : RunState) (q : List Char) :
    ∃ new, (runGlobal env st q).trace = st.trace ++ new ∧
      ∀ ev ∈ new, ev ∈ taskEvents := by
  unfold runGlobal
  cases env.globalSearch q with
  | ok r =>
    by_cases hr : r.isEmpty
    · exact ⟨["global_search", "global_search_completed"],
        by simp [logStep, hr], by decide⟩
    · exact ⟨["global_search", "global_search_completed"],
        by simp [logStep, addStepClk, hr], by decide⟩
  | error e =>
    exact ⟨["global_search", "global_search_error"], by simp [logStep], by decide⟩

theorem runExploration_trace (env : CoordEnv) (st : RunState) (q : List Char) :
    ∃ new, (runExploration env st q).trace = st.trace ++ new ∧
      ∀ ev ∈ new, ev ∈ taskEvents := by
  unfold runExploration
  cases env.exploration q with
  | ok r =>
    by_cases hr : r.isEmpty
    · exact ⟨["exploration", "exploration_completed"],
        by simp [logStep, hr], by decide⟩
    · exact ⟨["exploration", "exploration_completed"],
        by simp [logStep, addStepClk, hr], by decide⟩
  | error e =>
    exact ⟨["exploration", "exploration_error"], by simp [logStep], by decide⟩

theorem runChain_trace (env : CoordEnv) (st : RunState) (q : List Char)
    (es : List (List Char)) :
    ∃ new, (runChain env st q es).trace = st.trace ++ new ∧
      ∀ ev ∈ new, ev ∈ taskEvents := by
  unfold runChain
  dsimp only [logStep]
  by_cases he : (if es.isEmpty then
      extract_entities_from_results st.localResults st.globalResults
        st.explorationResults
    else es).isEmpty
  · rw [if_pos he]
    exact ⟨["chain_exploration", "chain_exploration_warning"],
      by simp [logStep], by decide⟩
  · rw [if_neg he]
    cases hce : env.chainExplore q ((if es.isEmpty then
        extract_entities_from_results st.localResults st.globalResults
          st.explorationResults
      else es).take 3) with
    | ok o =>
      cases o with
      | some result =>
        exact ⟨["chain_exploration", "chain_exploration_completed"],
          by simp [logStep, addStepClk], by decide⟩
      | none =>
        exact ⟨["chain_exploration", "chain_exploration_completed"],
          by simp [logStep], by decide⟩
    | error e =>
      exact ⟨["chain_exploration", "chain_exploration_error"],
        by simp [logStep], by decide⟩

theorem runTask_trace (env : CoordEnv) (query : List Char) (st : RunState)
    (t : Task) :
    ∃ new, (runTask env query st t).trace = st.trace ++ new ∧
      ∀ ev ∈ new, ev ∈ taskEvents := by
  unfold runTask
  have htr : (addStepClk st (taskStepContent query t)).trace = st.trace := rfl
  by_cases h1 : t.ty = "local_search".data
  · rw [if_pos h1]
    obtain ⟨new, hn, hs⟩ := runLocal_trace env (addStepClk st (taskStepContent query t)) _
    exact ⟨new, by rw [hn, htr], hs⟩
  · rw [if_neg h1]
    by_cases h2 : t.ty = "global_search".data
    · rw [if_pos h2]
      obtain ⟨new, hn, hs⟩ := runGlobal_trace env (addStepClk st (taskStepContent query t)) _
      exact ⟨new, by rw [hn, htr], hs⟩
    · rw [if_neg h2]
      by_cases h3 : t.ty = "exploration".data
      · rw [if_pos h3]
        obtain ⟨new, hn, hs⟩ :=
          runExploration_trace env (addStepClk st (taskStepContent query t)) _
        exact ⟨new, by rw [hn, htr], hs⟩
      · rw [if_neg h3]
        by_cases h4 : t.ty = "chain_exploration".data
        · rw [if_pos h4]
          obtain ⟨new, hn, hs⟩ :=
            runChain_trace env (addStepClk st (taskStepContent query t)) _ t.entities
          exact ⟨new, by rw [hn, htr], hs⟩
        · rw [if_neg h4]
          exact ⟨[], by rw [htr]; simp, by simp⟩

theorem foldl_runTask_trace (env : CoordEnv) (query : List Char) :
    ∀ (l : List Task) (st : RunState),
      ∃ new, (l.foldl (runTask env query) st).trace = st.trace ++ new ∧
        ∀ ev ∈ new, ev ∈ taskEvents := by
  intro l
  induction l with
  | nil => intro st; exact ⟨[], by simp, by simp⟩
  | cons t l ih =>
    intro st
    obtain ⟨n1, h1, hs1⟩ := runTask_trace env query st t
    obtain ⟨n2, h2, hs2⟩ := ih (runTask env query st t)
    refine ⟨n1 ++ n2, ?_, ?_⟩
    · rw [List.foldl_cons, h2, h1, List.append_assoc]
    · intro ev hev
      rcases List.mem_append.mp hev with h | h
      · exact hs1 ev h
      · exact hs2 ev h

theorem runLocal_steps (env : CoordEnv) (st : RunState) (q : List Char) :
    ∃ new, (runLocal env st q).engine.all_reasoning_steps
      = st.engine.all_reasoning_steps ++ new := by
  unfold runLocal
  cases env.localSearch q with
  | ok r =>
    by_cases hr : r.isEmpty
    · exact ⟨[], by simp [logStep, hr]⟩
    · exact ⟨["本地搜索结果摘要:\n".data ++ summarize_str r],
        by simp [logStep, addStepClk, hr, addReasoningStep]⟩
  | error e => exact ⟨[], by simp [logStep]⟩

theorem runGlobal_steps (env : CoordEnv) (st : RunState) (q : List Char) :
    ∃ new, (runGlobal env st q).engine.all_reasoning_steps
      = st.engine.all_reasoning_steps ++ new := by
  unfold runGlobal
  cases env.globalSearch q with
  | ok r =>
    by_cases hr : r.isEmpty
    · exact ⟨[], by simp [logStep, hr]⟩
    · exact ⟨["全局搜索结果摘要:\n".data ++ summarize_list r],
        by simp [logStep, addStepClk, hr, addReasoningStep]⟩
  | error e => exact ⟨[], by simp [logStep]⟩

theorem runExploration_steps (env : CoordEnv) (st : RunState) (q : List Char) :
    ∃ new, (runExploration env st q).engine.all_reasoning_steps
      = st.engine.all_reasoning_steps ++ new := by
  unfold runExploration
  cases env.exploration q with
  | ok r =>
    by_cases hr : r.isEmpty
    · exact ⟨[], by simp [logStep, hr]⟩
    · exact ⟨["深度探索结果摘要:\n".data ++ summarize_str r],
        by simp [logStep, addStepClk, hr, addReasoningStep]⟩
  | error e => exact ⟨[], by simp [logStep]⟩

theorem runChain_steps (env : CoordEnv) (st : RunState) (q : List Char)
    (es : List (List Char)) :
    ∃ new, (runChain env st q es).engine.all_reasoning_steps
      = st.engine.all_reasoning_steps ++ new := by
  unfold runChain
  dsimp only [logStep]
  by_cases he : (if es.isEmpty then
      extract_entities_from_results st.localResults st.globalResults
        st.explorationResults
    else es).isEmpty
  · rw [if_pos he]
    exact ⟨[], by simp [logStep]⟩
  · rw [if_neg he]
    cases hce : env.chainExplore q ((if es.isEmpty then
        extract_entities_from_results st.localResults st.globalResults
          st.explorationResults
      else es).take 3) with
    | ok o =>
      cases o with
      | some result =>
        exact ⟨[chainSummary result], by simp [logStep, addStepClk, addReasoningStep]⟩
      | none => exact ⟨[], by simp [logStep]⟩
    | error e => exact ⟨[], by simp [logStep]⟩

theorem runTask_steps (env : CoordEnv) (query : List Char) (st : RunState)
    (t : Task) :
    ∃ new, (runTask env query st t).engine.all_reasoning_steps
      = st.engine.all_reasoning_steps ++ taskStepContent query t :: new := by
  unfold runTask
  have hadd : (addStepClk st (taskStepContent query t)).engine.all_reasoning_steps
      = st.engine.all_reasoning_steps ++ [taskStepContent query t] := rfl
  by_cases h1 : t.ty = "local_search".data
  · rw [if_pos h1]
    obtain ⟨new, hn⟩ := runLocal_steps env (addStepClk st (taskStepContent query t)) _
    exact ⟨new, by rw [hn, hadd]; simp⟩
  · rw [if_neg h1]
    by_cases h2 : t.ty = "global_search".data
    · rw [if_pos h2]
      obtain ⟨new, hn⟩ := runGlobal_steps env (addStepClk st (taskStepContent query t)) _
      exact ⟨new, by rw [hn, hadd]; simp⟩
    · rw [if_neg h2]
      by_cases h3 : t.ty = "exploration".data
      · rw [if_pos h3]
        obtain ⟨new, hn⟩ :=
          runExploration_steps env (addStepClk st (taskStepContent query t)) _
        exact ⟨new, by rw [hn, hadd]; simp⟩
      · rw [if_neg h3]
        by_cases h4 : t.ty = "chain_exploration".data
        · rw [if_pos h4]
          obtain ⟨new, hn⟩ :=
            runChain_steps env (addStepClk st (taskStepContent query t)) _ t.entities
          exact ⟨new, by rw [hn, hadd]; simp⟩
        · rw [if_neg h4]
          exact ⟨[], by rw [hadd]⟩

theorem foldl_runTask_steps (env : CoordEnv) (query : List Char) :
    ∀ (l : List Task) (st : RunState),
      ∃ new, (l.foldl (runTask env query) st).engine.all_reasoning_steps
        = st.engine.all_reasoning_steps ++ new := by
  intro l
  induction l with
  | nil => intro st; exact ⟨[], by simp⟩
  | cons t l ih =>
    intro st
    obtain ⟨n1, h1⟩ := runTask_steps env query st t
    obtain ⟨n2, h2⟩ := ih (runTask env query st t)
    exact ⟨taskStepContent query t :: n1 ++ n2, by
      rw [List.foldl_cons, h2, h1]; simp⟩

theorem foldl_contains_taskStep (env : CoordEnv) (query : List Char) :
    ∀ (l : List Task) (st : RunState) (t : Task), t ∈ l →
      taskStepContent query t
        ∈ (l.foldl (runTask env query) st).engine.all_reasoning_steps := by
  intro l
  induction l with
  | nil => intro st t ht; cases ht
  | cons u l ih =>
    intro st t ht
    cases ht with
    | head =>
      obtain ⟨n1, h1⟩ := runTask_steps env query st u
      obtain ⟨n2, h2⟩ := foldl_runTask_steps env query l (runTask env query st u)
      rw [List.foldl_cons, h2, h1]
      simp
    | tail _ ht => exact ih (runTask env query st u) t ht

theorem runLocal_main (env : CoordEnv) (st : RunState) (q : List Char)
    (h : treeFind st.engine.reasoning_tree "main" ≠ none) :
    treeFind (runLocal env st q).engine.reasoning_tree "main" ≠ none := by
  unfold runLocal
  cases env.localSearch q with
  | ok r =>
    by_cases hr : r.isEmpty
    · simpa [logStep, hr] using h
    · simp only [logStep, hr, if_neg (by simpa using hr)]
      exact addStep_preserves_main _ _ _ h
  | error e => simpa [logStep] using h

theorem runGlobal_main (env : CoordEnv) (st : RunState) (q : List Char)
    (h : treeFind st.engine.reasoning_tree "main" ≠ none) :
    treeFind (runGlobal env st q).engine.reasoning_tree "main" ≠ none := by
  unfold runGlobal
  cases env.globalSearch q with
  | ok r =>
    by_cases hr : r.isEmpty
    · simpa [logStep, hr] using h
    · simp only [logStep, hr, if_neg (by simpa using hr)]
      exact addStep_preserves_main _ _ _ h
  | error e => simpa [logStep] using h

theorem runExploration_main (env : CoordEnv) (st : RunState) (q : List Char)
    (h : treeFind st.engine.reasoning_tree "main" ≠ none) :
    treeFind (runExploration env st q).engine.reasoning_tree "main" ≠ none := by
  unfold runExploration
  cases env.exploration q with
  | ok r =>
    by_cases hr : r.isEmpty
    · simpa [logStep, hr] using h
    · simp only [logStep, hr, if_neg (by simpa using hr)]
      exact addStep_preserves_main _ _ _ h
  | error e => simpa [logStep] using h

theorem runChain_main (env : CoordEnv) (st : RunState) (q : List Char)
    (es : List (List Char))
    (h : treeFind st.engine.reasoning_tree "main" ≠ none) :
    treeFind (runChain env st q es).engine.reasoning_tree "main" ≠ none := by
  unfold runChain
  dsimp only [logStep]
  by_cases he : (if es.isEmpty then
      extract_entities_from_results st.localResults st.globalResults
        st.explorationResults
    else es).isEmpty
  · rw [if_pos he]; simpa [logStep] using h
  · rw [if_neg he]
    cases hce : env.chainExplore q ((if es.isEmpty then
        extract_entities_from_results st.localResults st.globalResults
          st.explorationResults
      else es).take 3) with
    | ok o =>
      cases o with
      | some result =>
        simp only [logStep]
        exact addStep_preserves_main _ _ _ h
      | none => simpa [logStep] using h
    | error e => simpa [logStep] using h

theorem runTask_main (env : CoordEnv) (query : List Char) (st : RunState)
    (t : Task) (h : treeFind st.engine.reasoning_tree "main" ≠ none) :
    treeFind (runTask env query st t).engine.reasoning_tree "main" ≠ none := by
  unfold runTask
  have hadd : treeFind (addStepClk st (taskStepContent query t)).engine.reasoning_tree
      "main" ≠ none := addStep_preserves_main _ _ _ h
  by_cases h1 : t.ty = "local_search".data
  · rw [if_pos h1]; exact runLocal_main env _ _ hadd
  · rw [if_neg h1]
    by_cases h2 : t.ty = "global_search".data
    · rw [if_pos h2]; exact runGlobal_main env _ _ hadd
    · rw [if_neg h2]
      by_cases h3 : t.ty = "exploration".data
      · rw [if_pos h3]; exact runExploration_main env _ _ hadd
      · rw [if_neg h3]
        by_cases h4 : t.ty = "chain_exploration".data
        · rw [if_pos h4]; exact runChain_main env _ _ _ hadd
        · rw [if_neg h4]; exact hadd

theorem foldl_runTask_main (env : CoordEnv) (query : List Char) :
    ∀ (l : List Task) (st : RunState),
      treeFind st.engine.reasoning_tree "main" ≠ none →
      treeFind ((l.foldl (runTask env query) st).engine.reasoning_tree) "main" ≠ none := by
  intro l
  induction l with
  | nil => intro st h; exact h
  | cons t l ih =>
    intro st h
    exact ih (runTask env query st t) (runTask_main env query st t h)

theorem initWithQuery_main (e : ThinkingEngine) (q : List Char) :
    treeFind (initWithQuery e q).reasoning_tree "main" ≠ none := by
  simp [initWithQuery, treeFind]

theorem initStage_trace_pos (env : CoordEnv) (query : List Char) (plan : Plan)
    (h : plan.complexity.getD 0 > 7 / 10) :
    (initStage env query plan).trace
      = ["generating_plan", "plan_generated", "thinking_init",
          "initial_thinking", "initial_thinking_complete"] := by
  unfold initStage
  rw [if_pos h]
  rfl

theorem initStage_trace_neg (env : CoordEnv) (query : List Char) (plan : Plan)
    (h : ¬ plan.complexity.getD 0 > 7 / 10) :
    (initStage env query plan).trace
      = ["generating_plan", "plan_generated", "thinking_init"] := by
  unfold initStage
  rw [if_neg h]
  rfl

theorem initStage_main (env : CoordEnv) (query : List Char) (plan : Plan) :
    treeFind (initStage env query plan).engine.reasoning_tree "main" ≠ none := by
  unfold initStage
  by_cases h : plan.complexity.getD 0 > 7 / 10
  · rw [if_pos h]
    dsimp only [logStep, addStepClk]
    exact addStep_preserves_main _ _ _ (initWithQuery_main _ _)
  · rw [if_neg h]
    dsimp only [logStep]
    exact initWithQuery_main _ _

theorem initStage_buckets (env : CoordEnv) (query : List Char) (plan : Plan) :
    (initStage env query plan).localResults = [] ∧
    (initStage env query plan).globalResults = [] ∧
    (initStage env query plan).explorationResults = [] ∧
    (initStage env query plan).chainResults = [] := by
  unfold initStage
  by_cases h : plan.complexity.getD 0 > 7 / 10
  · rw [if_pos h]; exact ⟨rfl, rfl, rfl, rfl⟩
  · rw [if_neg h]; exact ⟨rfl, rfl, rfl, rfl⟩

theorem finalStage_trace (env : CoordEnv) (plan : Plan) (st : RunState) :
    ∃ tl, (finalStage env plan st).trace = st.trace ++ tl ∧
      "initial_thinking" ∉ tl := by
  unfold finalStage
  by_cases h : plan.complexity.getD 0 > 7 / 10
  · rw [if_pos h]
    exact ⟨["final_thinking", "final_thinking_complete", "synthesizing",
      "synthesis_completed"], by simp [logStep, addStepClk], by decide⟩
  · rw [if_neg h]
    exact ⟨["synthesizing", "synthesis_completed"], by simp [logStep], by decide⟩

theorem finalStage_steps (env : CoordEnv) (plan : Plan) (st : RunState) :
    ∃ new, (finalStage env plan st).engine.all_reasoning_steps
      = st.engine.all_reasoning_steps ++ new := by
  unfold finalStage
  by_cases h : plan.complexity.getD 0 > 7 / 10
  · rw [if_pos h]
    exact ⟨["基于所有搜索结果，更新我的思考".data,
      "验证结果汇总:\n- 被支持的假设: 0\n- 被拒绝的假设: 0\n- 不确定的假设: 0\n".data,
      "更新后的思考:\n\n".data ++ env.finalThinking],
      by simp [logStep, addStepClk, addReasoningStep, List.append_assoc]⟩
  · rw [if_neg h]
    exact ⟨[], by simp [logStep]⟩

theorem finalStage_main (env : CoordEnv) (plan : Plan) (st : RunState)
    (h : treeFind st.engine.reasoning_tree "main" ≠ none) :
    treeFind (finalStage env plan st).engine.reasoning_tree "main" ≠ none := by
  unfold finalStage
  by_cases hc : plan.complexity.getD 0 > 7 / 10
  · rw [if_pos hc]
    dsimp only [logStep, addStepClk]
    exact addStep_preserves_main _ _ _
      (addStep_preserves_main _ _ _ (addStep_preserves_main _ _ _ h))
  · rw [if_neg hc]
    exact h

theorem finalStage_chain (env : CoordEnv) (plan : Plan) (st : RunState) :
    (finalStage env plan st).chainResults = st.chainResults := by
  unfold finalStage
  by_cases h : plan.complexity.getD 0 > 7 / 10
  · rw [if_pos h]
    rfl
  · rw [if_neg h]
    rfl

/-- A concrete environment for the C6 counterexample. -/
def c6Env : CoordEnv :=
  { initialThinking := "初步思考".data
    finalThinking := "更新思考".data
    localSearch := fun _ => .ok "本地结果".data
    globalSearch := fun _ => .ok []
    exploration := fun _ => .ok []
    chainExplore := fun _ _ => .ok none }

/-- A concrete plan with complexity 1/2 (≤ 0.7) and one local task. -/
def c6Plan : Plan :=
  { complexity := some (1 / 2)
    tasks := [⟨"local_search".data, none, some 3, []⟩] }

/-- C6 counterexample: at complexity 1/2 ≤ 0.7, the Thinking Engine is
STILL initialized (the `main` branch exists) and reasoning steps ARE
appended — `initialize_with_query` is called unconditionally and the
task loop appends a step per task regardless of complexity. -/
theorem c6_thinking_used_below_threshold :
    ¬ ((1 : ℚ) / 2 > 7 / 10) ∧
    (process_query c6Env "q".data c6Plan).engine.all_reasoning_steps ≠ [] ∧
    treeFind (process_query c6Env "q".data c6Plan).engine.reasoning_tree "main"
      ≠ none := by
  refine ⟨by norm_num, ?_, ?_⟩
  · have hmem : taskStepContent "q".data
        (⟨"local_search".data, none, some 3, []⟩ : Task)
        ∈ (process_query c6Env "q".data c6Plan).engine.all_reasoning_steps := by
      unfold process_query
      obtain ⟨new, hnew⟩ := finalStage_steps c6Env c6Plan
        ((sortedTasksDesc c6Plan.tasks).foldl (runTask c6Env "q".data)
          (initStage c6Env "q".data c6Plan))
      rw [hnew]
      refine List.mem_append.mpr (Or.inl ?_)
      refine foldl_contains_taskStep c6Env "q".data _ _ _ ?_
      exact ((List.perm_insertionSort _ c6Plan.tasks).mem_iff).mpr (by decide)
    exact List.ne_nil_of_mem hmem
  · unfold process_query
    exact finalStage_main c6Env c6Plan _
      (foldl_runTask_main c6Env "q".data _ _ (initStage_main c6Env "q".data c6Plan))

/-- C6 (amended): the Thinking Engine is initialized for EVERY run (the
`main` branch exists afterwards regardless of complexity); the
`initial_thinking` trace event is emitted exactly when
`complexity > 0.7`; and a `执行任务` reasoning step is appended to the
engine for every planned task, even when complexity ≤ 0.7 (only the
initial/final thinking LLM calls and the returned thinking text are
gated). -/
theorem coordinator_thinking_gate (env : CoordEnv) (query : List Char)
    (plan : Plan) :
    treeFind (process_query env query plan).engine.reasoning_tree "main" ≠ none ∧
    ("initial_thinking" ∈ (process_query env query plan).trace ↔
      plan.complexity.getD 0 > 7 / 10) ∧
    ∀ t ∈ plan.tasks, taskStepContent query t
      ∈ (process_query env query plan).engine.all_reasoning_steps := by
  refine ⟨?_, ?_, ?_⟩
  · unfold process_query
    exact finalStage_main env plan _
      (foldl_runTask_main env query _ _ (initStage_main env query plan))
  · unfold process_query
    obtain ⟨tl, htl, htlni⟩ := finalStage_trace env plan
      ((sortedTasksDesc plan.tasks).foldl (runTask env query)
        (initStage env query plan))
    obtain ⟨new, hnew, hsub⟩ := foldl_runTask_trace env query
      (sortedTasksDesc plan.tasks) (initStage env query plan)
    rw [htl, hnew]
    by_cases h : plan.complexity.getD 0 > 7 / 10
    · rw [initStage_trace_pos env query plan h]
      exact iff_of_true
        (List.mem_append.mpr (Or.inl (List.mem_append.mpr (Or.inl (by decide))))) h
    · rw [initStage_trace_neg env query plan h]
      refine iff_of_false ?_ h
      intro hmem
      rcases List.mem_append.mp hmem with h1 | h1
      · rcases List.mem_append.mp h1 with h2 | h2
        · exact absurd h2 (by decide)
        · exact absurd (hsub _ h2) (by decide)
      · exact htlni h1
  · intro t ht
    unfold process_query
    obtain ⟨new, hnew⟩ := finalStage_steps env plan
      ((sortedTasksDesc plan.tasks).foldl (runTask env query)
        (initStage env query plan))
    rw [hnew]
    refine List.mem_append.mpr (Or.inl ?_)
    refine foldl_contains_taskStep env query _ _ t ?_
    exact ((List.perm_insertionSort _ plan.tasks).mem_iff).mpr ht

/-- Witness for the C6 amended theorem at the concrete low-complexity
run. -/
theorem coordinator_thinking_gate_witness :
    taskStepContent "q".data (⟨"local_search".data, none, some 3, []⟩ : Task)
      ∈ (process_query c6Env "q".data c6Plan).engine.all_reasoning_steps :=
  (coordinator_thinking_gate c6Env "q".data c6Plan).2.2
    ⟨"local_search".data, none, some 3, []⟩ (by decide)

/-! ### C7 theorems -/

/-- Text of the claim's scenario, with ASCII brackets as written there. -/
def c7TextA : List Char := "实体: Alpha\n[Bravo]".data

/-- A 30-character quoted phrase. -/
def c7Text30 : List Char := "\"abcdefghijklmnopqrstuvwxyzabcd\"".data

/-- C7 counterexample: the ASCII-bracketed `[Bravo]` is NOT extracted —
the bracket pattern matches full-width `【…】` only — so the claimed
scenario yields `{Alpha}` rather than `{Alpha, Bravo}`; and a quoted
phrase of exactly 30 characters is NOT extracted either: the filter is
`1 < len < 30`, i.e. lengths 2..29, not "2..30 inclusive". -/
theorem c7_extraction_counterexample :
    "Bravo".data ∉ extractFromTexts [c7TextA] ∧
    "Alpha".data ∈ extractFromTexts [c7TextA] ∧
    "abcdefghijklmnopqrstuvwxyzabcd".data.length = 30 ∧
    "abcdefghijklmnopqrstuvwxyzabcd".data ∉ extractFromTexts [c7Text30] := by
  exact ⟨by decide, by decide, by decide, by decide⟩

theorem runChain_warning (env : CoordEnv) (st : RunState) (q : List Char)
    (h1 : st.localResults = []) (h2 : st.globalResults = [])
    (h3 : st.explorationResults = []) :
    runChain env st q []
      = logStep (logStep st "chain_exploration") "chain_exploration_warning" := by
  have hex : extract_entities_from_results st.localResults st.globalResults
      st.explorationResults = [] := by
    rw [h1, h2, h3]; rfl
  simp [runChain, logStep, hex]

/-- C7 (amended): extracted entities are deduplicated and filtered to
lengths 2..29; quoted phrases, full-width `【…】`-bracketed phrases,
capitalized bigrams/trigrams and `实体:`-tagged phrases (captured up to
the next comma or newline) are extracted — so prior text containing
`实体: Alpha` and `【Bravo】` yields exactly `{Alpha, Bravo}`; and a
`chain_exploration` task with no entities and no extractable entities is
skipped with a `chain_exploration_warning` event and produces no chain
result. -/
theorem extract_entities_spec :
    (∀ texts e, e ∈ extractFromTexts texts → 2 ≤ e.length ∧ e.length ≤ 29) ∧
    extractFromTexts ["实体: Alpha\n【Bravo】".data]
      = {"Alpha".data, "Bravo".data} ∧
    (∀ (env : CoordEnv) (query : List Char) (c : Option ℚ) (t : Task),
      t.ty = "chain_exploration".data → t.entities = [] →
      "chain_exploration_warning" ∈ (process_query env query ⟨c, [t]⟩).trace ∧
      (process_query env query ⟨c, [t]⟩).chainResults = []) := by
  refine ⟨?_, by decide, ?_⟩
  · intro texts e he
    unfold extractFromTexts at he
    rw [List.mem_toFinset] at he
    unfold extractList at he
    rw [List.mem_dedup, List.mem_filter] at he
    have hlen := of_decide_eq_true he.2
    omega
  · intro env query c t hty hte
    obtain ⟨ty, tq, tp, te⟩ := t
    replace hty : ty = "chain_exploration".data := hty
    replace hte : te = [] := hte
    subst hty
    subst hte
    obtain ⟨hb1, hb2, hb3, hb4⟩ := initStage_buckets env query
      ⟨c, [⟨"chain_exploration".data, tq, tp, []⟩]⟩
    have hrun : (sortedTasksDesc [(⟨"chain_exploration".data, tq, tp, []⟩ : Task)]).foldl
          (runTask env query)
          (initStage env query ⟨c, [⟨"chain_exploration".data, tq, tp, []⟩]⟩)
        = logStep (logStep (addStepClk
            (initStage env query ⟨c, [⟨"chain_exploration".data, tq, tp, []⟩]⟩)
            (taskStepContent query ⟨"chain_exploration".data, tq, tp, []⟩))
          "chain_exploration") "chain_exploration_warning" := by
      have hsort : sortedTasksDesc [(⟨"chain_exploration".data, tq, tp, []⟩ : Task)]
          = [⟨"chain_exploration".data, tq, tp, []⟩] := rfl
      rw [hsort, List.foldl_cons, List.foldl_nil]
      unfold runTask
      dsimp only
      rw [if_neg (by decide), if_neg (by decide), if_neg (by decide), if_pos rfl]
      exact runChain_warning env _ _ hb1 hb2 hb3
    constructor
    · unfold process_query
      obtain ⟨tl, htl, _⟩ := finalStage_trace env
        ⟨c, [⟨"chain_exploration".data, tq, tp, []⟩]⟩ _
      rw [htl, hrun]
      dsimp only [logStep]
      simp
    · unfold process_query
      rw [finalStage_chain, hrun]
      dsimp only [logStep, addStepClk]
      exact hb4

/-- Witness for the C7 amended theorem at concrete inputs. -/
theorem extract_entities_spec_witness :
    (2 ≤ "Alpha".data.length ∧ "Alpha".data.length ≤ 29) ∧
    "chain_exploration_warning" ∈ (process_query c6Env "q".data
      ⟨some 1, [⟨"chain_exploration".data, none, some 2, []⟩]⟩).trace :=
  ⟨extract_entities_spec.1 ["实体: Alpha\n【Bravo】".data] "Alpha".data (by decide),
    (extract_entities_spec.2.2 c6Env "q".data (some 1)
      ⟨"chain_exploration".data, none, some 2, []⟩ rfl rfl).1⟩

/-! ## C3 / C10: `GlobalSearchTool.search`
(`src/search/tool/global_search_tool.py`, lines 78–128 and 239–291)

The tool's cache manager comes from `BaseSearchTool` (`search/tool/base.py`,
which is not under src/), so it is modelled from the spec. -/

/-- Modelled from the spec: the cache manager of `BaseSearchTool` (its
implementation is missing from src/).  Per §4.1/§8, `get` after a
successful `set` returns the most recently set string value and returns
a miss otherwise; modelled as an association list from key strings to
value strings. -/
abbrev Cache := List (List Char × List Char)

def cacheGet : Cache → List Char → Option (List Char)
  | [], _ => none
  | (k', v) :: r, k => if k' = k then some v else cacheGet r k

def cacheSet : Cache → List Char → List Char → Cache
  | [], k, v => [(k, v)]
  | (k', v') :: r, k, v =>
    if k' = k then (k, v) :: r else (k', v') :: cacheSet r k v

/-- External collaborators of `GlobalSearchTool`: the keyword-extraction
LLM chain (its raw string output), the community query
(`_get_community_data`, which may raise), and the map-phase chain
(`none` models a per-batch exception, caught and skipped). -/
structure GSEnv where
  kwChain : List Char → List Char
  communities : List (List Char) →
    Except (List Char) (List (List Char × List Char))
  mapChain : List Char → List Char → Option (List Char)

/-- `search`'s input: a plain string or a dict with `query` and
`keywords`. -/
inductive GSInput where
  | istr (q : List Char)
  | idict (q : List Char) (kws : List (List Char))
deriving DecidableEq

/-- What `search` does for the caller: return a string (the cached
value), return a list (the map-phase outputs), or raise. -/
inductive GSResult where
  | rstr (s : List Char)
  | rlist (xs : List (List Char))
  | exn (e : List Char)
deriving DecidableEq

def isExn : GSResult → Bool
  | .exn _ => true
  | _ => false

/-- The keyword-cache key `f"keywords:{query}"`. -/
def kwKey (q : List Char) : List Char := "keywords:".data ++ q

/-- Items of a parsed JSON array as strings (`json.loads` output used as
the keyword list). -/
def asStrItems : List Json → Option (List (List Char))
  | [] => some []
  | .str s :: r => (asStrItems r).map (s :: ·)
  | _ :: _ => none

/-- `str(formatted_keywords)` for an all-string keyword list:
`{'keywords': [...], 'low_level': [], 'high_level': [...]}`. -/
def pyStrOfKeywordsDict (kws : List (List Char)) : List Char :=
  [lbrace] ++ pyRepr "keywords".data ++ ": ".data ++ pyStrOfStrList kws ++
    ", ".data ++ pyRepr "low_level".data ++ ": [], ".data ++
    pyRepr "high_level".data ++ ": ".data ++ pyStrOfStrList kws ++ [rbrace]

/-- Outcome of `extract_keywords`: a cache hit returns the STORED STRING
(`return cached_keywords`), a computed result yields the keyword list,
and `badItems` marks a parsed array with non-string items (`sorted` /
`join` over it raises `TypeError` later in `search`; the cached string
of that corner is elided from the model). -/
inductive KwOutcome where
  | cachedStr (s : List Char)
  | fresh (kws : List (List Char))
  | badItems

/-- Embedding of `GlobalSearchTool.extract_keywords`: cache check
(truthiness of the stored string), LLM call, `json.loads`, list check,
cache write of `str(formatted_keywords)`; any parse failure returns the
default empty keyword dict without caching. -/
def extract_keywords (env : GSEnv) (cache : Cache) (q : List Char) :
    KwOutcome × Cache :=
  let compute : KwOutcome × Cache :=
    match jsonParse (env.kwChain q) with
    | some (.arr items) =>
      match asStrItems items with
      | some kws => (.fresh kws, cacheSet cache (kwKey q) (pyStrOfKeywordsDict kws))
      | none => (.badItems, cache)
    | some _ => (.fresh [], cacheSet cache (kwKey q) (pyStrOfKeywordsDict []))
    | none => (.fresh [], cache)
  match cacheGet cache (kwKey q) with
  | some s => if s.isEmpty then compute else (.cachedStr s, cache)
  | none => compute

/-- Python `sorted` on strings: lexicographic by code point. -/
def strLeB : List Char → List Char → Bool
  | [], _ => true
  | _ :: _, [] => false
  | a :: as, b :: bs => if a < b then true else if a = b then strLeB as bs else false

def sortStrings (xs : List (List Char)) : List (List Char) :=
  List.insertionSort (fun a b => strLeB a b = true) xs

/-- The result-cache key: `query` or
`f"{query}||{','.join(sorted(keywords))}"`. -/
def cacheKeyOf (q : List Char) (kws : List (List Char)) : List Char :=
  if kws.isEmpty then q
  else q ++ "||".data ++ List.intercalate ",".data (sortStrings kws)

/-- Batches of five communities (`communities[i:i+5]`). -/
def chunksGo : Nat → List (List Char × List Char) → List (List (List Char × List Char))
  | 0, _ => []
  | _, [] => []
  | f + 1, l => l.take 5 :: chunksGo f (l.drop 5)

def chunks5 (l : List (List Char × List Char)) : List (List (List Char × List Char)) :=
  chunksGo l.length l

/-- `_process_community_batch`'s context:
`"\n---\n".join(f"社区ID: {id}\n内容: {content}")`. -/
def batchContext (batch : List (List Char × List Char)) : List Char :=
  List.intercalate "\n---\n".data
    (batch.map fun p => "社区ID: ".data ++ p.1 ++ "\n内容: ".data ++ p.2)

/-- `_process_communities`: per-batch map call; empty or failing batches
are skipped. -/
def processCommunities (env : GSEnv) (q : List Char)
    (comms : List (List Char × List Char)) : List (List Char) :=
  ((chunks5 comms).map fun batch =>
    match env.mapChain q (batchContext batch) with
    | some r => if (stripChars r).isEmpty then [] else [r]
    | none => []).flatten

/-- The post-keyword part of `search` (lines 261–291): result-cache
check (truthiness), community fetch, map phase, cache write of
`str(intermediate_results)`; the `try` block covers only this part, so
an exception from the community fetch is caught and turned into a
one-element error list. -/
def searchCore (env : GSEnv) (cache : Cache) (q : List Char)
    (keywords : List (List Char)) : GSResult × Cache :=
  let key := cacheKeyOf q keywords
  let cached := (cacheGet cache key).getD []
  if cached.isEmpty then
    match env.communities keywords with
    | .error e => (.rlist ["搜索过程中出现错误: ".data ++ e], cache)
    | .ok comms =>
      if comms.isEmpty then (.rlist [], cache)
      else
        let inter := processCommunities env q comms
        (.rlist inter, cacheSet cache key (pyStrOfStrList inter))
  else (.rstr cached, cache)

/-- Embedding of `GlobalSearchTool.search`: dict inputs take query and
keywords from the dict; string inputs call `extract_keywords` first —
outside the `try` block — and then call `.get(...)` on its result, which
raises `AttributeError` when the keyword cache returned the stored
string, and `TypeError` at `sorted`/`join` when the parsed keyword array
held non-strings. -/
def gsearch (env : GSEnv) (cache : Cache) (input : GSInput) :
    GSResult × Cache :=
  match input with
  | .idict q kws => searchCore env cache q kws
  | .istr q =>
    match extract_keywords env cache q with
    | (.cachedStr _, c1) =>
      (.exn "AttributeError: str object has no attribute get".data, c1)
    | (.badItems, c1) => (.exn "TypeError: unorderable or non-str keywords".data, c1)
    | (.fresh kws, c1) => searchCore env c1 q kws

/-- A concrete environment where the map phase yields one summary. -/
def c3Env : GSEnv :=
  { kwChain := fun _ => "[]".data
    communities := fun _ => .ok [("c1".data, "content".data)]
    mapChain := fun _ _ => some "R1".data }

/-- C3 / code bug: two successive `search` calls with the same dict
input do NOT return equal results — the first returns the list
`["R1"]` and caches `str(["R1"])`, so the second returns that cached
STRING, not a list, contradicting both idempotence and the function's
own `-> List[str]` annotation. -/
theorem c3_cached_type_flip :
    (gsearch c3Env [] (GSInput.idict "q".data ["k".data])).1
        = GSResult.rlist ["R1".data] ∧
    (gsearch c3Env
        (gsearch c3Env [] (GSInput.idict "q".data ["k".data])).2
        (GSInput.idict "q".data ["k".data])).1
      = GSResult.rstr (pyStrOfStrList ["R1".data]) ∧
    GSResult.rstr (pyStrOfStrList ["R1".data]) ≠ GSResult.rlist ["R1".data] := by
  exact ⟨by decide, by decide, by decide⟩

/-- A concrete environment whose keyword chain yields `["k"]`. -/
def c10Env : GSEnv :=
  { kwChain := fun _ => "[\"k\"]".data
    communities := fun _ => .ok [("c1".data, "content".data)]
    mapChain := fun _ _ => some "R1".data }

/-- C10 counterexample: `search` CAN raise — a second string-input call
for the same query finds the keyword cache entry (a string), returns it
from `extract_keywords`, and the subsequent `.get("keywords", [])` —
outside the `try` block — raises `AttributeError`. -/
theorem c10_attribute_error_on_repeat :
    isExn (gsearch c10Env [] (GSInput.istr "q".data)).1 = false ∧
    isExn (gsearch c10Env
        (gsearch c10Env [] (GSInput.istr "q".data)).2
        (GSInput.istr "q".data)).1 = true := by
  exact ⟨by decide, by decide⟩

/-- Well-formedness of the keyword LLM output: if it parses as a JSON
array, the items are strings. -/
def kwWellformed (env : GSEnv) (q : List Char) : Bool :=
  match jsonParse (env.kwChain q) with
  | some (.arr items) => (asStrItems items).isSome
  | _ => true

/-- C10 (amended): dict-input calls never raise; string-input calls
never raise provided the keyword cache has no (non-empty) entry for the
query and the keyword chain is well-formed; when no community matches,
`search` returns `[]` without writing the result cache; and when the
community fetch raises, `search` returns a one-element error-message
list instead of propagating, again without writing the result cache. -/
theorem global_search_error_handling :
    (∀ env cache q kws, isExn (gsearch env cache (GSInput.idict q kws)).1 = false) ∧
    (∀ env cache q, (cacheGet cache (kwKey q) = none ∨
        cacheGet cache (kwKey q) = some []) → kwWellformed env q = true →
      isExn (gsearch env cache (GSInput.istr q)).1 = false) ∧
    (∀ env cache q kws, cacheGet cache (cacheKeyOf q kws) = none →
      env.communities kws = .ok [] →
      gsearch env cache (GSInput.idict q kws) = (GSResult.rlist [], cache)) ∧
    (∀ env cache q kws e, cacheGet cache (cacheKeyOf q kws) = none →
      env.communities kws = .error e →
      gsearch env cache (GSInput.idict q kws)
        = (GSResult.rlist ["搜索过程中出现错误: ".data ++ e], cache)) := by
  have hcore : ∀ env cache q kws, isExn (searchCore env cache q kws).1 = false := by
    intro env cache q kws
    unfold searchCore
    dsimp only
    by_cases hcc : ((cacheGet cache (cacheKeyOf q kws)).getD []).isEmpty
    · rw [if_pos hcc]
      cases hc : env.communities kws with
      | error e => rfl
      | ok comms =>
        dsimp only
        by_cases hcm : comms.isEmpty
        · rw [if_pos hcm]; rfl
        · rw [if_neg hcm]; rfl
    · rw [if_neg hcc]; rfl
  refine ⟨?_, ?_, ?_, ?_⟩
  · intro env cache q kws
    exact hcore env cache q kws
  · intro env cache q hkc hwf
    unfold kwWellformed at hwf
    unfold gsearch
    dsimp only
    unfold extract_keywords
    rcases hkc with hkc | hkc
    · rw [hkc]
      dsimp only
      cases hjp : jsonParse (env.kwChain q) with
      | none => exact hcore env cache q []
      | some j =>
        cases j with
        | arr items =>
          rw [hjp] at hwf
          dsimp only at hwf ⊢
          cases has : asStrItems items with
          | none => rw [has] at hwf; simp at hwf
          | some kws => dsimp only; exact hcore env _ q kws
        | str s => exact hcore env _ q []
        | num n => exact hcore env _ q []
        | bool b => exact hcore env _ q []
        | null => exact hcore env _ q []
        | obj fs => exact hcore env _ q []
    · rw [hkc]
      dsimp only
      rw [if_pos List.isEmpty_nil]
      cases hjp : jsonParse (env.kwChain q) with
      | none => exact hcore env cache q []
      | some j =>
        cases j with
        | arr items =>
          rw [hjp] at hwf
          dsimp only at hwf ⊢
          cases has : asStrItems items with
          | none => rw [has] at hwf; simp at hwf
          | some kws => dsimp only; exact hcore env _ q kws
        | str s => exact hcore env _ q []
        | num n => exact hcore env _ q []
        | bool b => exact hcore env _ q []
        | null => exact hcore env _ q []
        | obj fs => exact hcore env _ q []
  · intro env cache q kws hkc hcomm
    unfold gsearch searchCore
    dsimp only
    rw [hkc]
    dsimp only [Option.getD]
    rw [if_pos List.isEmpty_nil, hcomm]
    rfl
  · intro env cache q kws e hkc hcomm
    unfold gsearch searchCore
    dsimp only
    rw [hkc]
    dsimp only [Option.getD]
    rw [if_pos List.isEmpty_nil, hcomm]

/-- Witness for the C10 amended theorem at concrete inputs. -/
theorem global_search_error_handling_witness :
    isExn (gsearch c10Env [] (GSInput.istr "q".data)).1 = false ∧
    gsearch c3Env [] (GSInput.idict "q".data [])
      = (GSResult.rlist ["R1".data],
          cacheSet [] (cacheKeyOf "q".data []) (pyStrOfStrList ["R1".data])) ∧
    gsearch ⟨fun _ => "[]".data, fun _ => .ok [], fun _ _ => none⟩ []
        (GSInput.idict "q".data [])
      = (GSResult.rlist [], []) :=
  ⟨global_search_error_handling.2.1 c10Env [] "q".data (Or.inl (by decide))
      (by decide),
    by decide,
    global_search_error_handling.2.2.1 ⟨fun _ => "[]".data, fun _ => .ok [], fun _ _ => none⟩
      [] "q".data [] (by decide) rfl⟩

end DeepSearch
